import Mathlib

/-!
# Verification of the chat-organizer classification core

Shallow embedding of the repository's classification and tree-maintenance
engine (`utils/similarity.ts`, `utils/hash.ts`, `utils/tree.ts`,
`utils/pipeline.ts`, and the queue drain loop of `content.ts`), together
with proofs of the specified properties.

JS `number`s are modelled as real numbers; JS objects / `Map`s keyed by
strings are modelled as insertion-ordered association lists; the
asynchronous embedding / label capabilities are modelled as oracle values
supplied in an environment record; `Date.now()` and the random id suffix
are likewise environment-supplied.
-/

namespace ChatOrganizer

open scoped Classical

/-- `h |> hashStep c` : one iteration of the loop body of `hashPrompt`
(`hash.ts`): `h = (Math.imul(h, 31) + text.charCodeAt(i)) | 0`, viewed on
the underlying 32-bit pattern. -/
def hashStep (h c : Nat) : Nat := (h * 31 + c) % 4294967296

/-- The UTF-16 code units of a character, as produced by JS
`String.prototype.charCodeAt` iteration. -/
def utf16Units (c : Char) : List Nat :=
  let n := c.toNat
  if n < 65536 then [n]
  else [55296 + (n - 65536) / 1024, 56320 + (n - 65536) % 1024]

/-- Lowercase hex rendering of a natural (JS `(h >>> 0).toString(16)`). -/
def toHex (n : Nat) : String := (Nat.toDigits 16 n).asString

/-- JS `String.prototype.padStart(len, ch)`. -/
def padStart (s : String) (len : Nat) (ch : Char) : String :=
  ⟨List.replicate (len - s.length) ch ++ s.data⟩

/-- `hashPrompt` from `hash.ts`: a djb2-variant 32-bit string hash rendered
as 8 lowercase hex characters. -/
def hashPrompt (text : String) : String :=
  let h := (text.data.flatMap utf16Units).foldl hashStep 5381
  padStart (toHex h) 8 '0'

/-- `cosineSimilarity` from `similarity.ts`: standard cosine similarity,
returning 0 when the vectors differ in length, are empty, or one of them
has zero magnitude. -/
noncomputable def cosineSimilarity (a b : List ℝ) : ℝ :=
  if a.length ≠ b.length ∨ a.length = 0 then 0
  else
    let dot := ((a.zip b).map fun p => p.1 * p.2).sum
    let magA := (a.map fun x => x * x).sum
    let magB := (b.map fun x => x * x).sum
    let denom := Real.sqrt magA * Real.sqrt magB
    if denom = 0 then 0 else dot / denom

/-- A similarity-search candidate: a node id together with its embedding
(`Array<{ id, embedding }>` in `similarity.ts`). -/
structure Candidate where
  id : String
  embedding : List ℝ

/-- The result of `bestMatch`: `{ id, score }`. -/
structure MatchResult where
  id : String
  score : ℝ

/-- The loop of `bestMatch` (`similarity.ts`), with the running `best`
accumulator made explicit. -/
noncomputable def bestMatchGo (queryEmbedding : List ℝ) (threshold : ℝ) :
    Option MatchResult → List Candidate → Option MatchResult
  | best, [] => best
  | best, c :: rest =>
    if c.embedding.length = 0 then bestMatchGo queryEmbedding threshold best rest
    else
      let score := cosineSimilarity queryEmbedding c.embedding
      let best' :=
        if score ≥ threshold ∧ (match best with
            | none => True
            | some b => score > b.score) then
          some ⟨c.id, score⟩
        else best
      bestMatchGo queryEmbedding threshold best' rest

/-- `bestMatch` from `similarity.ts`: highest-scoring candidate meeting the
threshold, `none` when no candidate does. -/
noncomputable def bestMatch (queryEmbedding : List ℝ)
    (candidates : List Candidate) (threshold : ℝ) : Option MatchResult :=
  bestMatchGo queryEmbedding threshold none candidates

/-- Modelled from the spec's words (§4.1): "scans all candidates, computes
similarity, keeps the highest-scoring candidate whose score is
`>= threshold`; strict `>` is used to break ties in favor of the *first*
candidate at equal score; candidates with an empty vector are skipped".
Rendered as a structural recursion over the candidate list: the head
candidate wins against the best of the remainder exactly when it meets the
threshold and its score is at least (`≥`, i.e. ties go to the earlier
candidate) the later best score. -/
noncomputable def bestMatchSpec (queryEmbedding : List ℝ) (threshold : ℝ) :
    List Candidate → Option MatchResult
  | [] => none
  | c :: rest =>
    let r := bestMatchSpec queryEmbedding threshold rest
    if c.embedding = [] then r
    else
      let score := cosineSimilarity queryEmbedding c.embedding
      if score ≥ threshold then
        match r with
        | none => some ⟨c.id, score⟩
        | some b => if score ≥ b.score then some ⟨c.id, score⟩ else b
      else r

/-- `OutlineNode` from `tree.ts`.  `rank` is `0 | 1 | 2 | 3` in the source
type; it is modelled as `Nat`. -/
structure OutlineNode where
  id : String
  label : String
  rank : Nat
  children : List String
  promptIndices : List Nat
  promptCount : Nat
  createdAt : Nat
  updatedAt : Nat

/-- `PromptRecord` from `tree.ts`. -/
structure PromptRecord where
  index : Nat
  fullText : String
  firstSentence : String
  hash : String

/-- `CacheEntry` from `tree.ts`. -/
structure CacheEntry where
  nodeId : String
  confidence : ℝ

/-- A JS `Record` / `Map` keyed by strings, modelled as an
insertion-ordered association list (JS objects with string keys and JS
`Map`s both iterate in insertion order). -/
abbrev JsMap (α : Type) : Type := List (String × α)

/-- Key lookup (`m[k]` / `m.get(k)`). -/
def jsGet {α} (m : JsMap α) (k : String) : Option α :=
  (List.find? (fun p => p.1 = k) m).map (·.2)

/-- Key membership (`k in m` / `m.has(k)`). -/
def jsHas {α} (m : JsMap α) (k : String) : Bool :=
  List.any m (fun p => p.1 = k)

/-- Key update (`m[k] = v` / `m.set(k, v)`): replaces the value in place if
the key is present, otherwise appends, preserving iteration order. -/
def jsSet {α} (m : JsMap α) (k : String) (v : α) : JsMap α :=
  match m with
  | [] => [(k, v)]
  | p :: rest => if p.1 = k then (k, v) :: rest else p :: jsSet rest k v

/-- `Object.keys(m)`. -/
def jsKeys {α} (m : JsMap α) : List String := List.map (·.1) m

/-- `Object.values(m)`. -/
def jsValues {α} (m : JsMap α) : List α := List.map (·.2) m

/-- `ConversationIndex` from `tree.ts`. -/
structure ConversationIndex where
  conversationId : String
  prompts : List PromptRecord
  nodes : JsMap OutlineNode
  embeddings : JsMap (List ℝ)
  cache : JsMap CacheEntry

/-- `createIndex` from `tree.ts` (the `Date.now()` timestamp is passed in
as `now`). -/
def createIndex (conversationId : String) (now : Nat) : ConversationIndex :=
  { conversationId := conversationId
    prompts := []
    nodes := [("root",
      { id := "root", label := "root", rank := 0, children := [],
        promptIndices := [], promptCount := 0,
        createdAt := now, updatedAt := now })]
    embeddings := []
    cache := [] }

/-- `spawnNode` from `tree.ts`.  The generated id
`` `node_${Date.now()}_${Math.random()...}` `` is modelled as
`"node_" ++ suffix` with the suffix (and the timestamp) supplied by the
caller's environment.  Returns the new node and the updated index. -/
def spawnNode (index : ConversationIndex) (parentId label : String)
    (rank : Nat) (embedding : Option (List ℝ)) (now : Nat)
    (suffix : String) : OutlineNode × ConversationIndex :=
  let id := "node_" ++ suffix
  let node : OutlineNode :=
    { id := id, label := label, rank := rank, children := [],
      promptIndices := [], promptCount := 0, createdAt := now,
      updatedAt := now }
  let nodes1 := jsSet index.nodes id node
  let nodes2 :=
    match jsGet nodes1 parentId with
    | some parent =>
        jsSet nodes1 parentId { parent with children := parent.children ++ [id] }
    | none => nodes1
  let embeddings' :=
    match embedding with
    | some e => jsSet index.embeddings id e
    | none => index.embeddings
  (node, { index with nodes := nodes2, embeddings := embeddings' })

/-- `insertPromptIntoNode` from `tree.ts`: append the prompt index to the
node's `promptIndices` if not already present; no-op when the node does
not exist. -/
def insertPromptIntoNode (index : ConversationIndex) (nodeId : String)
    (promptIndex : Nat) (now : Nat) : ConversationIndex :=
  match jsGet index.nodes nodeId with
  | none => index
  | some node =>
    let node1 :=
      if node.promptIndices.contains promptIndex then node
      else { node with promptIndices := node.promptIndices ++ [promptIndex] }
    { index with nodes := jsSet index.nodes nodeId { node1 with updatedAt := now } }

/-- `recountSubtree` from `tree.ts`: post-order recomputation of
`promptCount`.  The source recursion is on the (acyclic, in every
reachable state) child graph; it is modelled with a fuel parameter large
enough for every reachable state (see `updatePromptCounts`). -/
def recountSubtree : Nat → JsMap OutlineNode → String → JsMap OutlineNode × Nat
  | 0, nodes, _ => (nodes, 0)
  | fuel + 1, nodes, nodeId =>
    match jsGet nodes nodeId with
    | none => (nodes, 0)
    | some node =>
      let p := node.children.foldl
        (fun acc childId =>
          let r := recountSubtree fuel acc.1 childId
          (r.1, acc.2 + r.2))
        (nodes, 0)
      let total := node.promptIndices.length + p.2
      (jsSet p.1 nodeId { node with promptCount := total }, total)

/-- `updatePromptCounts` from `tree.ts`: recompute `promptCount` for every
node, starting from the root.  Fuel `nodes.length + 3` strictly exceeds the
depth of the child graph in every reachable state (the hierarchy is at
most root → rank 1 → rank 2), so the model agrees with the source's
unbounded recursion there. -/
def updatePromptCounts (index : ConversationIndex) : ConversationIndex :=
  { index with nodes := (recountSubtree (index.nodes.length + 3) index.nodes "root").1 }

/-- `getChildCandidates` from `tree.ts`: direct children of `parentId`
that exist, match the (optional) rank filter, and have a registered
embedding. -/
def getChildCandidates (index : ConversationIndex) (parentId : String)
    (rank : Option Nat) : List Candidate :=
  match jsGet index.nodes parentId with
  | none => []
  | some parent =>
    (parent.children.filter fun id =>
        match jsGet index.nodes id with
        | some n =>
          (match rank with | none => true | some r => n.rank = r) &&
            jsHas index.embeddings id
        | none => false).map
      fun id => ⟨id, (jsGet index.embeddings id).getD []⟩

/-- `getAllEmbeddedCandidates` from `tree.ts`: every entry of the
embeddings map. -/
def getAllEmbeddedCandidates (index : ConversationIndex) : List Candidate :=
  index.embeddings.map fun p => ⟨p.1, p.2⟩

/-- The user settings relevant to the pipeline (`storage.ts`). -/
structure Settings where
  geminiApiKey : String
  thresholdHigh : ℝ
  thresholdLow : ℝ

/-- `ClassifyResult` from `pipeline.ts`. -/
structure ClassifyResult where
  nodeId : String
  confidence : ℝ
  isNewNode : Bool

/-- `PromptInput` from `pipeline.ts`. -/
structure PromptInput where
  index : Nat
  fullText : String
  firstSentence : String

/-- One capability call sent through `sendToBackground` (`gemini.ts`):
either an embedding request or a label-generation request. -/
inductive CapCall
  | embed (text : String)
  | label (context : String) (existingLabels : List String)

/-- The environment for one `classifyPrompt` run: the oracle answers of
the (at most two) embedding calls and the (at most one) label call, the
`Date.now()` timestamp, and the random suffix of a freshly generated node
id. -/
structure PipelineEnv where
  embedSentence : Except String (List ℝ)
  embedFull : Except String (List ℝ)
  labelRes : Except String String
  now : Nat
  suffix : String

/-- `fetchLabel` from `pipeline.ts`: ask the label capability, falling
back to the trimmed 40-character prefix of the input text on failure.
Also returns the capability call it made. -/
def fetchLabel (text : String) (index : ConversationIndex)
    (env : PipelineEnv) : String × CapCall :=
  let existingLabels :=
    ((jsValues index.nodes).filter fun n => 0 < n.rank).map (·.label)
  let result :=
    match env.labelRes with
    | Except.ok l => l
    | Except.error _ => (text.take 40).trim
  (result, CapCall.label text existingLabels)

/-- `commit` from `pipeline.ts`: attach the prompt, recount, record the
cache entry, and build the result. -/
def commit (index : ConversationIndex) (hash nodeId : String)
    (confidence : ℝ) (isNewNode : Bool) (promptIndex now : Nat) :
    ClassifyResult × ConversationIndex :=
  let index1 := insertPromptIntoNode index nodeId promptIndex now
  let index2 := updatePromptCounts index1
  let index3 := { index2 with cache := jsSet index2.cache hash ⟨nodeId, confidence⟩ }
  (⟨nodeId, confidence, isNewNode⟩, index3)

/-- `classifyPrompt` from `pipeline.ts`: the 6-step classification
pipeline.  Returns the result (or the thrown error), the updated index,
and the list of capability calls that were made, in order. -/
noncomputable def classifyPrompt (index : ConversationIndex)
    (prompt : PromptInput) (settings : Settings) (env : PipelineEnv) :
    Except String ClassifyResult × ConversationIndex × List CapCall :=
  -- Step 1: cache check
  let hash := hashPrompt prompt.fullText
  match jsGet index.cache hash with
  | some cached =>
    let index1 := insertPromptIntoNode index cached.nodeId prompt.index env.now
    let index2 := updatePromptCounts index1
    (Except.ok ⟨cached.nodeId, cached.confidence, false⟩, index2, [])
  | none =>
    -- Step 2: embed first sentence
    match env.embedSentence with
    | Except.error e =>
      (Except.error ("[pipeline] Embed failed: " ++ e), index,
        [CapCall.embed prompt.firstSentence])
    | Except.ok sentenceEmbedding =>
      -- Step 6 (shared tail): spawn a new rank-1 header under root
      let step6 := fun (calls : List CapCall) =>
        let lbl := fetchLabel prompt.firstSentence index env
        let sp := spawnNode index "root" lbl.1 1 (some sentenceEmbedding)
          env.now env.suffix
        let c := commit sp.2 hash sp.1.id 0 true prompt.index env.now
        (Except.ok c.1, c.2, calls ++ [lbl.2])
      -- Step 3: walk rank-1 headers
      let rank1Candidates := getChildCandidates index "root" (some 1)
      match bestMatch sentenceEmbedding rank1Candidates settings.thresholdHigh with
      | some rank1Hit =>
        -- Step 4: drill into rank-2 subheaders
        let rank2Candidates := getChildCandidates index rank1Hit.id (some 2)
        match bestMatch sentenceEmbedding rank2Candidates settings.thresholdHigh with
        | some rank2Hit =>
          let c := commit index hash rank2Hit.id rank2Hit.score false
            prompt.index env.now
          (Except.ok c.1, c.2, [CapCall.embed prompt.firstSentence])
        | none =>
          let lbl := fetchLabel prompt.firstSentence index env
          let sp := spawnNode index rank1Hit.id lbl.1 2 (some sentenceEmbedding)
            env.now env.suffix
          let c := commit sp.2 hash sp.1.id rank1Hit.score true prompt.index env.now
          (Except.ok c.1, c.2, [CapCall.embed prompt.firstSentence, lbl.2])
      | none =>
        -- Step 5: escalate — re-embed full text, scan all nodes
        if 1 < index.nodes.length then
          match env.embedFull with
          | Except.ok fullEmbedding =>
            let allCandidates := getAllEmbeddedCandidates index
            match bestMatch fullEmbedding allCandidates settings.thresholdLow with
            | some fullHit =>
              match jsGet index.nodes fullHit.id with
              | some hitNode =>
                if hitNode.rank = 1 then
                  let lbl := fetchLabel prompt.firstSentence index env
                  let sp := spawnNode index fullHit.id lbl.1 2 (some fullEmbedding)
                    env.now env.suffix
                  let c := commit sp.2 hash sp.1.id fullHit.score true
                    prompt.index env.now
                  (Except.ok c.1, c.2,
                    [CapCall.embed prompt.firstSentence,
                     CapCall.embed prompt.fullText, lbl.2])
                else
                  let c := commit index hash fullHit.id fullHit.score false
                    prompt.index env.now
                  (Except.ok c.1, c.2,
                    [CapCall.embed prompt.firstSentence,
                     CapCall.embed prompt.fullText])
              | none =>
                let c := commit index hash fullHit.id fullHit.score false
                  prompt.index env.now
                (Except.ok c.1, c.2,
                  [CapCall.embed prompt.firstSentence,
                   CapCall.embed prompt.fullText])
            | none =>
              step6 [CapCall.embed prompt.firstSentence,
                CapCall.embed prompt.fullText]
          | Except.error _ =>
            step6 [CapCall.embed prompt.firstSentence,
              CapCall.embed prompt.fullText]
        else
          step6 [CapCall.embed prompt.firstSentence]

/-- The loop of `initializeEmbeddings`: one embedding call per node that
needs one, consuming oracle responses in order. -/
def embedLoop (responses : Nat → Except String (List ℝ)) :
    List OutlineNode → Nat → JsMap (List ℝ) → JsMap (List ℝ)
  | [], _, m => m
  | n :: rest, k, m =>
    let m' :=
      match responses k with
      | Except.ok e => jsSet m n.id e
      | Except.error _ => m
    embedLoop responses rest (k + 1) m'

/-- `initializeEmbeddings` from `pipeline.ts`: re-embed the label of every
rank ≥ 1 node that has no in-memory embedding yet; skipped entirely when
no API key is configured. -/
def initializeEmbeddings (index : ConversationIndex) (settings : Settings)
    (responses : Nat → Except String (List ℝ)) : ConversationIndex :=
  if settings.geminiApiKey = "" then index
  else
    let needsEmbed := (jsValues index.nodes).filter fun n =>
      0 < n.rank && !(jsHas index.embeddings n.id)
    { index with embeddings := embedLoop responses needsEmbed 0 index.embeddings }

/-- A message scraped from the page (`domParser.ts` / `content.ts`). -/
structure ParsedMessage where
  index : Nat
  fullText : String
  headingText : String

/-- `drainQueue` from `content.ts`: process queued messages front to back;
skip already-processed fingerprints; optimistically append the prompt
record before classifying and pop it back off when classification throws;
continue with the rest of the queue either way.  Each queued message
carries the oracle environment of its (potential) classification run. -/
noncomputable def drainQueue (settings : Settings) :
    ConversationIndex → List String → List (ParsedMessage × PipelineEnv) →
    ConversationIndex × List String
  | index, processed, [] => (index, processed)
  | index, processed, (msg, env) :: rest =>
    let hash := hashPrompt msg.fullText
    if processed.contains hash then drainQueue settings index processed rest
    else
      let index1 := { index with prompts := index.prompts ++
        [⟨msg.index, msg.fullText, msg.headingText, hash⟩] }
      match classifyPrompt index1 ⟨msg.index, msg.fullText, msg.headingText⟩
          settings env with
      | (Except.ok _, index2, _) =>
        drainQueue settings index2 (processed ++ [hash]) rest
      | (Except.error _, index2, _) =>
        drainQueue settings { index2 with prompts := index2.prompts.dropLast }
          processed rest

/-- The states of the store reachable from `createIndex` by any sequence
of (successful or failed) `classifyPrompt` runs and `initializeEmbeddings`
passes.  The side condition on `classify` models the freshness of the
timestamp-and-random generated node id of `spawnNode`. -/
inductive Reachable : ConversationIndex → Prop
  | base (conversationId : String) (now : Nat) :
      Reachable (createIndex conversationId now)
  | classify {index : ConversationIndex} (prompt : PromptInput)
      (settings : Settings) (env : PipelineEnv)
      (hfresh : jsGet index.nodes ("node_" ++ env.suffix) = none) :
      Reachable index →
      Reachable (classifyPrompt index prompt settings env).2.1
  | initEmb {index : ConversationIndex} (settings : Settings)
      (responses : Nat → Except String (List ℝ)) :
      Reachable index →
      Reachable (initializeEmbeddings index settings responses)

/-! ## Helper lemmas about `bestMatch` -/

/-- Merging an earlier running best with the best of the remaining
candidates: the later one wins only with a strictly greater score. -/
noncomputable def combineBest : Option MatchResult → Option MatchResult → Option MatchResult
  | none, r => r
  | some b, none => some b
  | some b, some r => if r.score > b.score then some r else some b

theorem bestMatchGo_eq_combine (q : List ℝ) (t : ℝ) (cs : List Candidate)
    (best : Option MatchResult) :
    bestMatchGo q t best cs = combineBest best (bestMatchSpec q t cs) := by
  induction cs generalizing best with
  | nil => cases best <;> simp [bestMatchGo, bestMatchSpec, combineBest]
  | cons c rest ih =>
    by_cases hc : c.embedding = []
    · simp [bestMatchGo, bestMatchSpec, hc, ih]
    · have hlen : ¬ c.embedding.length = 0 := by
        simpa [List.length_eq_zero] using hc
      set s := cosineSimilarity q c.embedding with hs
      cases best with
      | none =>
        by_cases hst : s ≥ t
        · simp only [bestMatchGo, bestMatchSpec, if_neg hlen, if_neg hc, ← hs]
          rw [if_pos ⟨hst, trivial⟩, ih, if_pos hst]
          cases hrest : bestMatchSpec q t rest with
          | none => simp [combineBest]
          | some br =>
            by_cases hbr : s ≥ br.score
            · simp [combineBest, if_pos hbr, not_lt.mpr hbr]
            · simp [combineBest, if_neg hbr, lt_of_not_ge hbr]
        · simp only [bestMatchGo, bestMatchSpec, if_neg hlen, if_neg hc, ← hs]
          rw [if_neg (by simp [hst]), ih, if_neg hst]
      | some b0 =>
        by_cases hst : s ≥ t
        · by_cases hb0 : s > b0.score
          · simp only [bestMatchGo, bestMatchSpec, if_neg hlen, if_neg hc, ← hs]
            rw [if_pos ⟨hst, hb0⟩, ih, if_pos hst]
            cases hrest : bestMatchSpec q t rest with
            | none => simp [combineBest, hb0]
            | some br =>
              by_cases hbr : s ≥ br.score
              · simp [combineBest, if_pos hbr, not_lt.mpr hbr, hb0]
              · have h1 : br.score > s := lt_of_not_ge hbr
                have h2 : br.score > b0.score := lt_trans hb0 h1
                simp [combineBest, if_neg hbr, h1, h2]
          · simp only [bestMatchGo, bestMatchSpec, if_neg hlen, if_neg hc, ← hs]
            rw [if_neg (by simp [hb0]), ih, if_pos hst]
            have hsb0 : s ≤ b0.score := not_lt.mp hb0
            cases hrest : bestMatchSpec q t rest with
            | none => simp [combineBest, hb0]
            | some br =>
              by_cases hbr : s ≥ br.score
              · have : ¬ br.score > b0.score := not_lt.mpr (le_trans hbr hsb0)
                simp [combineBest, if_pos hbr, hb0, this]
              · simp [combineBest, if_neg hbr]
        · simp only [bestMatchGo, bestMatchSpec, if_neg hlen, if_neg hc, ← hs]
          rw [if_neg (by simp [hst]), ih, if_neg hst]

theorem bestMatch_eq_spec_aux (q : List ℝ) (cs : List Candidate) (t : ℝ) :
    bestMatch q cs t = bestMatchSpec q t cs := by
  rw [bestMatch, bestMatchGo_eq_combine]
  cases bestMatchSpec q t cs <;> simp [combineBest]

/-- A returned match always reflects a real, nonempty-vector candidate and
meets the threshold. -/
theorem bestMatchSpec_some_sound (q : List ℝ) (t : ℝ) (cs : List Candidate)
    (r : MatchResult) (h : bestMatchSpec q t cs = some r) :
    r.score ≥ t ∧ ∃ c ∈ cs, c.embedding ≠ [] ∧ r.id = c.id ∧
      r.score = cosineSimilarity q c.embedding := by
  induction cs with
  | nil => simp [bestMatchSpec] at h
  | cons c rest ih =>
    by_cases hc : c.embedding = []
    · rw [bestMatchSpec, if_pos hc] at h
      obtain ⟨h1, c', hc', h2⟩ := ih h
      exact ⟨h1, c', List.mem_cons_of_mem _ hc', h2⟩
    · rw [bestMatchSpec, if_neg hc] at h
      by_cases hst : cosineSimilarity q c.embedding ≥ t
      · rw [if_pos hst] at h
        cases hrest : bestMatchSpec q t rest with
        | none =>
          rw [hrest] at h
          cases h
          exact ⟨hst, c, List.mem_cons_self _ _, hc, rfl, rfl⟩
        | some br =>
          rw [hrest] at h
          dsimp only at h
          by_cases hbr : cosineSimilarity q c.embedding ≥ br.score
          · rw [if_pos hbr] at h
            cases h
            exact ⟨hst, c, List.mem_cons_self _ _, hc, rfl, rfl⟩
          · rw [if_neg hbr] at h
            cases h
            obtain ⟨h1, c', hc', h2⟩ := ih hrest
            exact ⟨h1, c', List.mem_cons_of_mem _ hc', h2⟩
      · rw [if_neg hst] at h
        obtain ⟨h1, c', hc', h2⟩ := ih h
        exact ⟨h1, c', List.mem_cons_of_mem _ hc', h2⟩

/-- When no match is returned, every nonempty-vector candidate scores
below the threshold. -/
theorem bestMatchSpec_none_sound (q : List ℝ) (t : ℝ) (cs : List Candidate)
    (h : bestMatchSpec q t cs = none) :
    ∀ c ∈ cs, c.embedding ≠ [] → cosineSimilarity q c.embedding < t := by
  induction cs with
  | nil => simp
  | cons c rest ih =>
    by_cases hc : c.embedding = []
    · rw [bestMatchSpec, if_pos hc] at h
      intro c' hc' hne
      rcases List.mem_cons.mp hc' with rfl | hmem
      · exact absurd hc hne
      · exact ih h c' hmem hne
    · rw [bestMatchSpec, if_neg hc] at h
      by_cases hst : cosineSimilarity q c.embedding ≥ t
      · rw [if_pos hst] at h
        cases hrest : bestMatchSpec q t rest <;> rw [hrest] at h <;>
          dsimp only at h
        · simp at h
        · split at h <;> simp at h
      · rw [if_neg hst] at h
        intro c' hc' hne
        rcases List.mem_cons.mp hc' with rfl | hmem
        · exact lt_of_not_ge hst
        · exact ih h c' hmem hne

/-- Lowering the threshold preserves an existing match verbatim. -/
theorem bestMatchSpec_mono (q : List ℝ) (t t' : ℝ) (cs : List Candidate)
    (r : MatchResult) (hle : t' ≤ t) (h : bestMatchSpec q t cs = some r) :
    bestMatchSpec q t' cs = some r := by
  induction cs generalizing r with
  | nil => simp [bestMatchSpec] at h
  | cons c rest ih =>
    by_cases hc : c.embedding = []
    · rw [bestMatchSpec, if_pos hc] at h ⊢
      exact ih r h
    · rw [bestMatchSpec, if_neg hc] at h ⊢
      set s := cosineSimilarity q c.embedding with hs
      by_cases hst : s ≥ t
      · have hst' : s ≥ t' := le_trans hle hst
        rw [if_pos hst] at h
        rw [if_pos hst']
        cases hrest : bestMatchSpec q t rest with
        | none =>
          rw [hrest] at h
          dsimp only at h
          cases hrest' : bestMatchSpec q t' rest with
          | none => dsimp only; exact h
          | some br' =>
            obtain ⟨_, c', hc', hne', _, hscore⟩ :=
              bestMatchSpec_some_sound q t' rest br' hrest'
            have hlt : br'.score < t :=
              hscore ▸ bestMatchSpec_none_sound q t rest hrest c' hc' hne'
            have hge : s ≥ br'.score := le_of_lt (lt_of_lt_of_le hlt hst)
            dsimp only
            rw [if_pos hge]
            exact h
        | some br =>
          rw [hrest] at h
          dsimp only at h
          rw [ih br hrest]
          dsimp only
          exact h
      · rw [if_neg hst] at h
        have hbr := (bestMatchSpec_some_sound q t rest r h).1
        have hlt : s < r.score := lt_of_lt_of_le (lt_of_not_ge hst) hbr
        by_cases hst' : s ≥ t'
        · rw [if_pos hst', ih r h]
          dsimp only
          rw [if_neg (not_le.mpr hlt)]
        · rw [if_neg hst']
          exact ih r h

/-- A nonzero cosine similarity is only possible for same-length, nonempty
vectors. -/
theorem cosineSimilarity_ne_zero_shape (a b : List ℝ)
    (h : cosineSimilarity a b ≠ 0) :
    a.length = b.length ∧ a ≠ [] ∧ b ≠ [] := by
  rw [cosineSimilarity] at h
  by_cases hdeg : a.length ≠ b.length ∨ a.length = 0
  · rw [if_pos hdeg] at h
    exact absurd rfl h
  · push_neg at hdeg
    refine ⟨hdeg.1, ?_, ?_⟩
    · intro hnil
      exact hdeg.2 (by simp [hnil])
    · intro hnil
      apply hdeg.2
      rw [hdeg.1, hnil]
      rfl

/-! ## Claim theorems: the similarity utility -/

/-- **C3.** `bestMatch` returns the highest-scoring candidate whose cosine
similarity to the query is `≥ threshold`, breaking ties at equal score in
favor of the candidate appearing first in the list; empty-vector
candidates are skipped; `none` is returned when no candidate reaches the
threshold.  Stated as: the loop of `similarity.ts` agrees with
`bestMatchSpec`, the direct rendering of the spec's selection rule. -/
theorem bestMatch_selects_first_highest_qualifier (q : List ℝ)
    (cs : List Candidate) (t : ℝ) :
    bestMatch q cs t = bestMatchSpec q t cs :=
  bestMatch_eq_spec_aux q cs t

/-- **C7, counterexample.**  The claim says a candidate whose vector
length differs from the query's is never the result of `bestMatch`; but at
threshold 0 the mismatched-length candidate scores 0 ≥ 0 and is returned. -/
theorem bestMatch_returns_mismatched_at_zero_threshold :
    bestMatch [1] [⟨"x", [1, 2]⟩] 0 = some ⟨"x", 0⟩ := by
  simp [bestMatch, bestMatchGo, cosineSimilarity]

/-- **C7, amended.**  An empty-vector candidate is never the result of
`bestMatch` (for any threshold, and in particular
`bestMatch q [{id:"x", vector:[]}] t = none`); a candidate whose vector
length differs from the query's is never the result whenever the
threshold is positive (at thresholds ≤ 0 it can win with score 0). -/
theorem bestMatch_degenerate_candidates (q : List ℝ) (cs : List Candidate)
    (t : ℝ) (r : MatchResult) :
    (bestMatch q cs t = some r → ∃ c ∈ cs, c.id = r.id ∧ c.embedding ≠ []) ∧
    (0 < t → bestMatch q cs t = some r →
      ∃ c ∈ cs, c.id = r.id ∧ c.embedding ≠ [] ∧
        c.embedding.length = q.length) ∧
    bestMatch q [⟨"x", []⟩] t = none := by
  refine ⟨?_, ?_, ?_⟩
  · intro h
    rw [bestMatch_eq_spec_aux] at h
    obtain ⟨_, c, hmem, hne, hid, _⟩ := bestMatchSpec_some_sound q t cs r h
    exact ⟨c, hmem, hid.symm, hne⟩
  · intro ht h
    rw [bestMatch_eq_spec_aux] at h
    obtain ⟨hge, c, hmem, hne, hid, hscore⟩ := bestMatchSpec_some_sound q t cs r h
    have hcos : cosineSimilarity q c.embedding ≠ 0 := by
      rw [← hscore]
      exact ne_of_gt (lt_of_lt_of_le ht hge)
    obtain ⟨hlen, _, _⟩ := cosineSimilarity_ne_zero_shape q c.embedding hcos
    exact ⟨c, hmem, hid.symm, hne, hlen.symm⟩
  · simp [bestMatch, bestMatchGo]

/-- Witness for the amended C7 theorem at concrete inputs. -/
theorem bestMatch_degenerate_candidates_witness :
    (∃ c ∈ [Candidate.mk "x" [1, 2]], c.id = "x" ∧ c.embedding ≠ []) ∧
    (∃ c ∈ [Candidate.mk "a" [1]], c.id = "a" ∧ c.embedding ≠ [] ∧
      c.embedding.length = List.length ([1] : List ℝ)) :=
  ⟨(bestMatch_degenerate_candidates [1] [⟨"x", [1, 2]⟩] 0 ⟨"x", 0⟩).1
      (by simp [bestMatch, bestMatchGo, cosineSimilarity]),
   (bestMatch_degenerate_candidates [1] [⟨"a", [1]⟩] 1 ⟨"a", 1⟩).2.1
      (by norm_num)
      (by simp [bestMatch, bestMatchGo, cosineSimilarity, Real.sqrt_one])⟩

/-- **C8.**  The match set of `bestMatch` is monotone in the threshold:
whatever matches at threshold `t` also matches — as the very same
candidate with the same score — at every threshold `t' ≤ t`. -/
theorem bestMatch_threshold_monotone (q : List ℝ) (cs : List Candidate)
    (t t' : ℝ) (r : MatchResult) (hle : t' ≤ t)
    (h : bestMatch q cs t = some r) : bestMatch q cs t' = some r := by
  rw [bestMatch_eq_spec_aux] at h ⊢
  exact bestMatchSpec_mono q t t' cs r hle h

/-- Witness for the C8 theorem at concrete inputs. -/
theorem bestMatch_threshold_monotone_witness :
    bestMatch [1] [⟨"a", [1]⟩] 0 = some ⟨"a", 1⟩ :=
  bestMatch_threshold_monotone [1] [⟨"a", [1]⟩] 1 0 ⟨"a", 1⟩ (by norm_num)
    (by simp [bestMatch, bestMatchGo, cosineSimilarity, Real.sqrt_one])

/-! ## Helper lemmas about the association-list maps -/

@[simp] theorem jsGet_nil {α} (k : String) : jsGet ([] : JsMap α) k = none := rfl

theorem jsGet_cons {α} (k' : String) (v : α) (m : JsMap α) (k : String) :
    jsGet ((k', v) :: m) k = if k' = k then some v else jsGet m k := by
  by_cases h : k' = k <;> simp [jsGet, List.find?_cons, h]

@[simp] theorem jsGet_jsSet_self {α} (m : JsMap α) (k : String) (v : α) :
    jsGet (jsSet m k v) k = some v := by
  induction m with
  | nil => simp [jsSet, jsGet_cons]
  | cons p rest ih =>
    rw [jsSet]
    by_cases h : p.1 = k
    · rw [if_pos h, jsGet_cons, if_pos rfl]
    · rw [if_neg h, jsGet_cons, if_neg h]
      exact ih

theorem jsGet_jsSet_ne {α} (m : JsMap α) (k k' : String) (v : α)
    (h : k ≠ k') : jsGet (jsSet m k v) k' = jsGet m k' := by
  induction m with
  | nil => simp [jsSet, jsGet_cons, h]
  | cons p rest ih =>
    rw [jsSet]
    by_cases hp : p.1 = k
    · rw [if_pos hp, jsGet_cons, jsGet_cons, if_neg (hp ▸ h), if_neg (hp ▸ h)]
    · rw [if_neg hp, jsGet_cons, jsGet_cons, ih]

theorem jsHas_eq_isSome {α} (m : JsMap α) (k : String) :
    jsHas m k = (jsGet m k).isSome := by
  induction m with
  | nil => rfl
  | cons p rest ih =>
    rw [jsHas, List.any_cons, jsGet_cons]
    by_cases h : p.1 = k <;> simp [h, ← ih, jsHas]

theorem jsGet_mem {α} {m : JsMap α} {k : String} {v : α}
    (h : jsGet m k = some v) : (k, v) ∈ m := by
  induction m with
  | nil => simp [jsGet] at h
  | cons p rest ih =>
    rw [jsGet_cons] at h
    by_cases hp : p.1 = k
    · rw [if_pos hp] at h
      cases h
      have : p = (k, p.2) := by
        rw [← hp]
      rw [← this]
      exact List.mem_cons_self _ _
    · rw [if_neg hp] at h
      exact List.mem_cons_of_mem _ (ih h)

/-! ## Shape preservation through `updatePromptCounts` -/

/-- A node with its `promptCount` field forgotten: `recountSubtree` changes
nothing else. -/
def eraseCount (n : OutlineNode) : OutlineNode := { n with promptCount := 0 }

/-- Two node maps with the same keys and, pointwise, the same nodes up to
`promptCount`. -/
def ShapeEq (m m' : JsMap OutlineNode) : Prop :=
  ∀ k, Option.map eraseCount (jsGet m' k) = Option.map eraseCount (jsGet m k)

theorem ShapeEq.refl (m : JsMap OutlineNode) : ShapeEq m m := fun _ => rfl

theorem ShapeEq.trans {m1 m2 m3 : JsMap OutlineNode} (h1 : ShapeEq m1 m2)
    (h2 : ShapeEq m2 m3) : ShapeEq m1 m3 := fun k => (h2 k).trans (h1 k)

theorem ShapeEq.get_back {m m' : JsMap OutlineNode} (h : ShapeEq m m') {k : String}
    {n' : OutlineNode} (hk : jsGet m' k = some n') :
    ∃ n, jsGet m k = some n ∧ eraseCount n' = eraseCount n := by
  have := h k
  rw [hk] at this
  cases hg : jsGet m k with
  | none => rw [hg] at this; simp at this
  | some n =>
    rw [hg] at this
    exact ⟨n, rfl, by simpa using this⟩

theorem shapeEq_recountSubtree (fuel : Nat) (nodes : JsMap OutlineNode)
    (nodeId : String) : ShapeEq nodes (recountSubtree fuel nodes nodeId).1 := by
  induction fuel generalizing nodes nodeId with
  | zero => exact ShapeEq.refl nodes
  | succ fuel ih =>
    rw [recountSubtree]
    cases hg : jsGet nodes nodeId with
    | none => exact ShapeEq.refl nodes
    | some node =>
      dsimp only
      have haux : ∀ (cs : List String) (acc : JsMap OutlineNode × Nat),
          ShapeEq nodes acc.1 →
          ShapeEq nodes (cs.foldl
            (fun acc childId =>
              let r := recountSubtree fuel acc.1 childId
              (r.1, acc.2 + r.2)) acc).1 := by
        intro cs
        induction cs with
        | nil => intro acc h; exact h
        | cons c rest ihc =>
          intro acc h
          rw [List.foldl_cons]
          exact ihc _ (h.trans (ih acc.1 c))
      have hfold := haux node.children (nodes, 0) (ShapeEq.refl nodes)
      intro k
      by_cases hk : nodeId = k
      · subst hk
        rw [jsGet_jsSet_self]
        rw [hg]
        rfl
      · rw [jsGet_jsSet_ne _ _ _ _ hk]
        exact hfold k

theorem shapeEq_updatePromptCounts (index : ConversationIndex) :
    ShapeEq index.nodes (updatePromptCounts index).nodes :=
  shapeEq_recountSubtree _ index.nodes "root"

theorem updatePromptCounts_conversationId (index : ConversationIndex) :
    (updatePromptCounts index).conversationId = index.conversationId := rfl

theorem updatePromptCounts_cache (index : ConversationIndex) :
    (updatePromptCounts index).cache = index.cache := rfl

theorem updatePromptCounts_embeddings (index : ConversationIndex) :
    (updatePromptCounts index).embeddings = index.embeddings := rfl

theorem updatePromptCounts_prompts (index : ConversationIndex) :
    (updatePromptCounts index).prompts = index.prompts := rfl

theorem insertPromptIntoNode_cache (index : ConversationIndex)
    (nodeId : String) (promptIndex now : Nat) :
    (insertPromptIntoNode index nodeId promptIndex now).cache = index.cache := by
  rw [insertPromptIntoNode]
  cases jsGet index.nodes nodeId <;> rfl

theorem insertPromptIntoNode_embeddings (index : ConversationIndex)
    (nodeId : String) (promptIndex now : Nat) :
    (insertPromptIntoNode index nodeId promptIndex now).embeddings =
      index.embeddings := by
  rw [insertPromptIntoNode]
  cases jsGet index.nodes nodeId <;> rfl

theorem insertPromptIntoNode_prompts (index : ConversationIndex)
    (nodeId : String) (promptIndex now : Nat) :
    (insertPromptIntoNode index nodeId promptIndex now).prompts =
      index.prompts := by
  rw [insertPromptIntoNode]
  cases jsGet index.nodes nodeId <;> rfl

theorem commit_fst (index : ConversationIndex) (hash nodeId : String)
    (confidence : ℝ) (isNewNode : Bool) (promptIndex now : Nat) :
    (commit index hash nodeId confidence isNewNode promptIndex now).1 =
      ⟨nodeId, confidence, isNewNode⟩ := rfl

theorem commit_cache_get (index : ConversationIndex) (hash nodeId : String)
    (confidence : ℝ) (isNewNode : Bool) (promptIndex now : Nat) :
    jsGet (commit index hash nodeId confidence isNewNode promptIndex now).2.cache
      hash = some ⟨nodeId, confidence⟩ := by
  rw [commit]
  dsimp only
  rw [updatePromptCounts_cache, insertPromptIntoNode_cache, jsGet_jsSet_self]

/-! ## The shapes a `classifyPrompt` run can take -/

/-- Every run of `classifyPrompt` either throws on the sentence-embedding
failure (leaving the index untouched), or hits the cache, or places the
prompt through `commit`. -/
theorem classifyPrompt_cases (index : ConversationIndex) (p : PromptInput)
    (s : Settings) (env : PipelineEnv) :
    (∃ e, classifyPrompt index p s env =
      (Except.error e, index, [CapCall.embed p.firstSentence])) ∨
    (∃ cached, jsGet index.cache (hashPrompt p.fullText) = some cached ∧
      classifyPrompt index p s env =
        (Except.ok ⟨cached.nodeId, cached.confidence, false⟩,
          updatePromptCounts
            (insertPromptIntoNode index cached.nodeId p.index env.now), [])) ∨
    (∃ idx0 nodeId conf flag calls, classifyPrompt index p s env =
      (Except.ok
          (commit idx0 (hashPrompt p.fullText) nodeId conf flag p.index env.now).1,
        (commit idx0 (hashPrompt p.fullText) nodeId conf flag p.index env.now).2,
        calls)) := by
  rw [classifyPrompt]
  cases hcache : jsGet index.cache (hashPrompt p.fullText) with
  | some cached =>
    exact Or.inr (Or.inl ⟨cached, rfl, rfl⟩)
  | none =>
    cases hemb : env.embedSentence with
    | error e => exact Or.inl ⟨"[pipeline] Embed failed: " ++ e, rfl⟩
    | ok v =>
      dsimp only
      cases hr1 : bestMatch v (getChildCandidates index "root" (some 1))
          s.thresholdHigh with
      | some rank1Hit =>
        dsimp only
        cases hr2 : bestMatch v (getChildCandidates index rank1Hit.id (some 2))
            s.thresholdHigh with
        | some rank2Hit =>
          dsimp only
          exact Or.inr (Or.inr ⟨index, _, _, _, _, rfl⟩)
        | none =>
          dsimp only
          exact Or.inr (Or.inr ⟨_, _, _, _, _, rfl⟩)
      | none =>
        dsimp only
        by_cases hlen : 1 < index.nodes.length
        · rw [if_pos hlen]
          cases hfull : env.embedFull with
          | ok fullEmbedding =>
            dsimp only
            cases hfh : bestMatch fullEmbedding (getAllEmbeddedCandidates index)
                s.thresholdLow with
            | some fullHit =>
              dsimp only
              cases hhit : jsGet index.nodes fullHit.id with
              | some hitNode =>
                dsimp only
                by_cases hrank : hitNode.rank = 1
                · rw [if_pos hrank]
                  exact Or.inr (Or.inr ⟨_, _, _, _, _, rfl⟩)
                · rw [if_neg hrank]
                  exact Or.inr (Or.inr ⟨index, _, _, _, _, rfl⟩)
              | none =>
                dsimp only
                exact Or.inr (Or.inr ⟨index, _, _, _, _, rfl⟩)
            | none =>
              dsimp only
              exact Or.inr (Or.inr ⟨_, _, _, _, _, rfl⟩)
          | error e =>
            dsimp only
            exact Or.inr (Or.inr ⟨_, _, _, _, _, rfl⟩)
        · rw [if_neg hlen]
          exact Or.inr (Or.inr ⟨_, _, _, _, _, rfl⟩)

/-- After a successful run, the cache maps the passage fingerprint to
exactly the returned placement. -/
theorem classifyPrompt_ok_cache (index : ConversationIndex) (p : PromptInput)
    (s : Settings) (env : PipelineEnv) (r : ClassifyResult)
    (h : (classifyPrompt index p s env).1 = Except.ok r) :
    jsGet (classifyPrompt index p s env).2.1.cache (hashPrompt p.fullText) =
      some ⟨r.nodeId, r.confidence⟩ := by
  rcases classifyPrompt_cases index p s env with ⟨e, heq⟩ |
    ⟨cached, hcache, heq⟩ | ⟨idx0, nodeId, conf, flag, calls, heq⟩
  · rw [heq] at h
    cases h
  · rw [heq] at h ⊢
    cases h
    dsimp only
    rw [updatePromptCounts_cache, insertPromptIntoNode_cache, hcache]
  · rw [heq] at h ⊢
    rw [commit_fst] at h
    cases h
    dsimp only
    rw [commit_cache_get]

/-! ## Claim theorems: caching and the ingestion queue -/

/-- **C2.**  Once a passage with some full text has been successfully
classified, classifying any passage with the same full text again (with
any settings and any oracle environment) returns the same node id and the
same confidence, reports `isNewNode = false`, and makes zero embedding or
label capability calls. -/
theorem classifyPrompt_idempotent_on_cached_text (index : ConversationIndex)
    (p p' : PromptInput) (s s' : Settings) (env env' : PipelineEnv)
    (r1 : ClassifyResult)
    (h1 : (classifyPrompt index p s env).1 = Except.ok r1)
    (htext : p'.fullText = p.fullText) :
    (classifyPrompt (classifyPrompt index p s env).2.1 p' s' env').1 =
      Except.ok ⟨r1.nodeId, r1.confidence, false⟩ ∧
    (classifyPrompt (classifyPrompt index p s env).2.1 p' s' env').2.2 = [] := by
  have hc : jsGet (classifyPrompt index p s env).2.1.cache
      (hashPrompt p'.fullText) = some ⟨r1.nodeId, r1.confidence⟩ := by
    rw [htext]
    exact classifyPrompt_ok_cache index p s env r1 h1
  rw [classifyPrompt, hc]
  exact ⟨rfl, rfl⟩

/-- Witness for the C2 theorem: a concrete cold-start classification
followed by a reclassification of the same text. -/
theorem classifyPrompt_idempotent_on_cached_text_witness :
    (classifyPrompt (classifyPrompt (createIndex "c" 0) ⟨0, "a", "a"⟩
        ⟨"k", 1, 0⟩ ⟨Except.ok [1], Except.ok [1], Except.ok "L", 0, "s"⟩).2.1
      ⟨1, "a", "a"⟩ ⟨"k", 1, 0⟩
      ⟨Except.ok [1], Except.ok [1], Except.ok "M", 1, "t"⟩).1 =
      Except.ok ⟨"node_s", 0, false⟩ ∧
    (classifyPrompt (classifyPrompt (createIndex "c" 0) ⟨0, "a", "a"⟩
        ⟨"k", 1, 0⟩ ⟨Except.ok [1], Except.ok [1], Except.ok "L", 0, "s"⟩).2.1
      ⟨1, "a", "a"⟩ ⟨"k", 1, 0⟩
      ⟨Except.ok [1], Except.ok [1], Except.ok "M", 1, "t"⟩).2.2 = [] :=
  classifyPrompt_idempotent_on_cached_text (createIndex "c" 0)
    ⟨0, "a", "a"⟩ ⟨1, "a", "a"⟩ ⟨"k", 1, 0⟩ ⟨"k", 1, 0⟩
    ⟨Except.ok [1], Except.ok [1], Except.ok "L", 0, "s"⟩
    ⟨Except.ok [1], Except.ok [1], Except.ok "M", 1, "t"⟩
    ⟨"node_s", 0, true⟩ rfl rfl

/-- **C6.**  When the sentence-embedding capability fails on an uncached
passage, that passage's classification throws, the optimistically appended
prompt record is rolled back, the store is exactly as it was before the
passage arrived, and the queue continues with the remaining passages. -/
theorem drainQueue_embed_failure_rolls_back (s : Settings)
    (index : ConversationIndex) (processed : List String)
    (msg : ParsedMessage) (env : PipelineEnv) (e : String)
    (rest : List (ParsedMessage × PipelineEnv))
    (hproc : processed.contains (hashPrompt msg.fullText) = false)
    (hcache : jsGet index.cache (hashPrompt msg.fullText) = none)
    (hemb : env.embedSentence = Except.error e) :
    (classifyPrompt
        { index with prompts := index.prompts ++
            [⟨msg.index, msg.fullText, msg.headingText, hashPrompt msg.fullText⟩] }
        ⟨msg.index, msg.fullText, msg.headingText⟩ s env).1 =
      Except.error ("[pipeline] Embed failed: " ++ e) ∧
    drainQueue s index processed ((msg, env) :: rest) =
      drainQueue s index processed rest := by
  have hrun : classifyPrompt
      { index with prompts := index.prompts ++
          [⟨msg.index, msg.fullText, msg.headingText, hashPrompt msg.fullText⟩] }
      ⟨msg.index, msg.fullText, msg.headingText⟩ s env =
      (Except.error ("[pipeline] Embed failed: " ++ e),
        { index with prompts := index.prompts ++
            [⟨msg.index, msg.fullText, msg.headingText, hashPrompt msg.fullText⟩] },
        [CapCall.embed msg.headingText]) := by
    rw [classifyPrompt]
    dsimp only
    rw [hcache, hemb]
  refine ⟨by rw [hrun], ?_⟩
  rw [drainQueue]
  dsimp only
  rw [if_neg (by simpa using hproc), hrun]
  dsimp only
  rw [List.dropLast_concat]

/-- Witness for the C6 theorem: a concrete failing embed on a fresh
store, with an empty remaining queue. -/
theorem drainQueue_embed_failure_rolls_back_witness :
    (classifyPrompt
        { (createIndex "c" 0) with prompts := (createIndex "c" 0).prompts ++
            [⟨0, "a", "a", hashPrompt "a"⟩] }
        ⟨0, "a", "a"⟩ ⟨"k", 1, 0⟩
        ⟨Except.error "boom", Except.ok [], Except.ok "L", 0, "s"⟩).1 =
      Except.error ("[pipeline] Embed failed: " ++ "boom") ∧
    drainQueue ⟨"k", 1, 0⟩ (createIndex "c" 0) []
        [(⟨0, "a", "a"⟩, ⟨Except.error "boom", Except.ok [], Except.ok "L",
          0, "s"⟩)] =
      drainQueue ⟨"k", 1, 0⟩ (createIndex "c" 0) [] [] :=
  drainQueue_embed_failure_rolls_back ⟨"k", 1, 0⟩ (createIndex "c" 0) []
    ⟨0, "a", "a"⟩ ⟨Except.error "boom", Except.ok [], Except.ok "L", 0, "s"⟩
    "boom" [] rfl rfl rfl

/-! ## Effect of spawn + commit on the store -/

theorem nodeId_ne_root (s : String) : "node_" ++ s ≠ "root" := by
  intro h
  have h2 := congrArg String.length h
  rw [String.length_append] at h2
  have h3 : "node_".length = 5 := rfl
  have h4 : "root".length = 4 := rfl
  omega

theorem ShapeEq.get_fwd {m m' : JsMap OutlineNode} (h : ShapeEq m m')
    {k : String} {n : OutlineNode} (hk : jsGet m k = some n) :
    ∃ n', jsGet m' k = some n' ∧ eraseCount n' = eraseCount n := by
  have hh := h k
  rw [hk] at hh
  cases hg : jsGet m' k with
  | none => rw [hg] at hh; simp at hh
  | some n' =>
    rw [hg] at hh
    exact ⟨n', rfl, by simpa using hh⟩

theorem eraseCount_fields {a b : OutlineNode} (h : eraseCount a = eraseCount b) :
    a.id = b.id ∧ a.label = b.label ∧ a.rank = b.rank ∧
      a.children = b.children ∧ a.promptIndices = b.promptIndices := by
  cases a
  cases b
  simp only [eraseCount, OutlineNode.mk.injEq] at h
  obtain ⟨h1, h2, h3, h4, h5, _, _⟩ := h
  exact ⟨h1, h2, h3, h4, h5⟩

theorem commit_embeddings (index : ConversationIndex) (hash nodeId : String)
    (confidence : ℝ) (isNewNode : Bool) (promptIndex now : Nat) :
    (commit index hash nodeId confidence isNewNode promptIndex now).2.embeddings =
      index.embeddings := by
  rw [commit]
  dsimp only
  rw [updatePromptCounts_embeddings, insertPromptIntoNode_embeddings]

theorem commit_nodes_shape (index : ConversationIndex) (hash nodeId : String)
    (confidence : ℝ) (isNewNode : Bool) (promptIndex now : Nat) :
    ShapeEq (insertPromptIntoNode index nodeId promptIndex now).nodes
      (commit index hash nodeId confidence isNewNode promptIndex now).2.nodes :=
  shapeEq_updatePromptCounts (insertPromptIntoNode index nodeId promptIndex now)

/-- The node map right after `spawnNode` holds the freshly created node at
its generated id (possibly with its `children` list already extended, in
the degenerate self-parent case). -/
theorem spawnNode_get_new (index : ConversationIndex) (parentId lbl : String)
    (rank : Nat) (embedding : Option (List ℝ)) (now : Nat) (suffix : String) :
    ∃ ch, jsGet (spawnNode index parentId lbl rank embedding now suffix).2.nodes
      ("node_" ++ suffix) =
      some ⟨"node_" ++ suffix, lbl, rank, ch, [], 0, now, now⟩ := by
  rw [spawnNode.eq_def]
  dsimp only
  cases hp : jsGet (jsSet index.nodes ("node_" ++ suffix)
      ⟨"node_" ++ suffix, lbl, rank, [], [], 0, now, now⟩) parentId with
  | none => exact ⟨[], by rw [jsGet_jsSet_self]⟩
  | some parent =>
    by_cases hid : parentId = "node_" ++ suffix
    · subst hid
      rw [jsGet_jsSet_self] at hp
      cases hp
      refine ⟨["node_" ++ suffix], ?_⟩
      rw [jsGet_jsSet_self]
      simp
    · refine ⟨[], ?_⟩
      rw [jsGet_jsSet_ne _ _ _ _ hid, jsGet_jsSet_self]

/-- After `commit` of a prompt into a freshly spawned node, the node is in
the store with the spawn-time label and rank and exactly the committed
prompt attached. -/
theorem commit_spawn_get (index : ConversationIndex) (parentId lbl : String)
    (rank : Nat) (embedding : Option (List ℝ)) (now : Nat) (suffix : String)
    (hash : String) (conf : ℝ) (flag : Bool) (pIdx : Nat) :
    ∃ n, jsGet (commit (spawnNode index parentId lbl rank embedding now suffix).2
        hash ("node_" ++ suffix) conf flag pIdx now).2.nodes
        ("node_" ++ suffix) = some n ∧
      n.label = lbl ∧ n.rank = rank ∧ n.promptIndices = [pIdx] := by
  obtain ⟨ch, hget⟩ := spawnNode_get_new index parentId lbl rank embedding now suffix
  have hins : jsGet (insertPromptIntoNode
      (spawnNode index parentId lbl rank embedding now suffix).2
      ("node_" ++ suffix) pIdx now).nodes ("node_" ++ suffix) =
      some ⟨"node_" ++ suffix, lbl, rank, ch, [pIdx], 0, now, now⟩ := by
    rw [insertPromptIntoNode, hget]
    dsimp only
    rw [if_neg (by simp)]
    dsimp only
    rw [jsGet_jsSet_self]
    simp
  obtain ⟨n, hn, hshape⟩ :=
    (commit_nodes_shape _ hash ("node_" ++ suffix) conf flag pIdx now).get_fwd hins
  obtain ⟨_, hlbl, hrank, _, hpi⟩ := eraseCount_fields hshape
  exact ⟨n, hn, hlbl, hrank, hpi⟩

theorem spawnNode_fst (index : ConversationIndex) (parentId lbl : String)
    (rank : Nat) (embedding : Option (List ℝ)) (now : Nat) (suffix : String) :
    (spawnNode index parentId lbl rank embedding now suffix).1 =
      ⟨"node_" ++ suffix, lbl, rank, [], [], 0, now, now⟩ := rfl

theorem spawnNode_embeddings_some (index : ConversationIndex)
    (parentId lbl : String) (rank : Nat) (eVec : List ℝ) (now : Nat)
    (suffix : String) :
    (spawnNode index parentId lbl rank (some eVec) now suffix).2.embeddings =
      jsSet index.embeddings ("node_" ++ suffix) eVec := by
  rw [spawnNode.eq_def]

theorem spawnNode_nodes (index : ConversationIndex) (parentId lbl : String)
    (rank : Nat) (embedding : Option (List ℝ)) (now : Nat) (suffix : String)
    (pn : OutlineNode) (hparent : jsGet index.nodes parentId = some pn)
    (hne : parentId ≠ "node_" ++ suffix) :
    (spawnNode index parentId lbl rank embedding now suffix).2.nodes =
      jsSet (jsSet index.nodes ("node_" ++ suffix)
          ⟨"node_" ++ suffix, lbl, rank, [], [], 0, now, now⟩)
        parentId { pn with children := pn.children ++ ["node_" ++ suffix] } := by
  rw [spawnNode.eq_def]
  dsimp only
  rw [jsGet_jsSet_ne _ _ _ _ (Ne.symm hne), hparent]

/-- After `commit` of a prompt into a freshly spawned node, the parent's
`children` list has the new id appended at the end. -/
theorem commit_spawn_parent_get (index : ConversationIndex)
    (parentId lbl : String) (rank : Nat) (embedding : Option (List ℝ))
    (now : Nat) (suffix hash : String) (conf : ℝ) (flag : Bool) (pIdx : Nat)
    (pn : OutlineNode) (hparent : jsGet index.nodes parentId = some pn)
    (hfresh : jsGet index.nodes ("node_" ++ suffix) = none) :
    ∃ pn', jsGet (commit
        (spawnNode index parentId lbl rank embedding now suffix).2 hash
        ("node_" ++ suffix) conf flag pIdx now).2.nodes parentId = some pn' ∧
      pn'.children = pn.children ++ ["node_" ++ suffix] := by
  have hne : parentId ≠ "node_" ++ suffix := by
    intro h
    rw [h, hfresh] at hparent
    cases hparent
  have hns := spawnNode_nodes index parentId lbl rank embedding now suffix pn
    hparent hne
  have hins : jsGet (insertPromptIntoNode
      (spawnNode index parentId lbl rank embedding now suffix).2
      ("node_" ++ suffix) pIdx now).nodes parentId =
      some { pn with children := pn.children ++ ["node_" ++ suffix] } := by
    rw [insertPromptIntoNode, hns]
    rw [jsGet_jsSet_ne _ _ _ _ hne, jsGet_jsSet_self]
    dsimp only
    rw [if_neg (by simp)]
    dsimp only
    rw [jsGet_jsSet_ne _ _ _ _ (Ne.symm hne), jsGet_jsSet_self]
  obtain ⟨pn', hpn', hshape⟩ :=
    (commit_nodes_shape _ hash ("node_" ++ suffix) conf flag pIdx now).get_fwd hins
  obtain ⟨_, _, _, hch, _⟩ := eraseCount_fields hshape
  exact ⟨pn', hpn', by rw [hch]⟩

/-- A candidate produced by `getChildCandidates` corresponds to an
existing node with the requested rank and a registered embedding. -/
theorem getChildCandidates_mem {index : ConversationIndex}
    {parentId : String} {rank : Nat} {c : Candidate}
    (h : c ∈ getChildCandidates index parentId (some rank)) :
    ∃ n, jsGet index.nodes c.id = some n ∧ n.rank = rank ∧
      jsHas index.embeddings c.id = true := by
  rw [getChildCandidates] at h
  cases hp : jsGet index.nodes parentId with
  | none => rw [hp] at h; simp at h
  | some parent =>
    rw [hp] at h
    dsimp only at h
    obtain ⟨id, hmem, hc⟩ := List.mem_map.mp h
    obtain ⟨-, hpred⟩ := List.mem_filter.mp hmem
    have hcid : c.id = id := by rw [← hc]
    rw [hcid]
    cases hn : jsGet index.nodes id with
    | none => rw [hn] at hpred; cases hpred
    | some n =>
      rw [hn] at hpred
      dsimp only at hpred
      rw [Bool.and_eq_true] at hpred
      obtain ⟨hrank, hhas⟩ := hpred
      refine ⟨n, rfl, ?_, hhas⟩
      simpa using hrank

/-! ## Claim theorems: the classification pipeline -/

/-- **C4.**  Cold start: with only the root in the tree and an uncached
passage, `classifyPrompt` makes no second (full-text) embedding call,
spawns a new rank-1 node under root carrying the sentence vector, attaches
the passage to it, and returns confidence 0 with `isNewNode = true`. -/
theorem classifyPrompt_cold_start (index : ConversationIndex)
    (p : PromptInput) (s : Settings) (env : PipelineEnv)
    (rootNode : OutlineNode) (v : List ℝ)
    (hnodes : index.nodes = [("root", rootNode)])
    (hchildren : rootNode.children = [])
    (hrank : rootNode.rank = 0)
    (hcache : jsGet index.cache (hashPrompt p.fullText) = none)
    (hemb : env.embedSentence = Except.ok v) :
    (classifyPrompt index p s env).1 =
      Except.ok ⟨"node_" ++ env.suffix, 0, true⟩ ∧
    (classifyPrompt index p s env).2.2 =
      [CapCall.embed p.firstSentence, CapCall.label p.firstSentence []] ∧
    (∃ n, jsGet (classifyPrompt index p s env).2.1.nodes
        ("node_" ++ env.suffix) = some n ∧ n.rank = 1 ∧
        n.promptIndices = [p.index]) ∧
    jsGet (classifyPrompt index p s env).2.1.embeddings
      ("node_" ++ env.suffix) = some v ∧
    (∃ rt, jsGet (classifyPrompt index p s env).2.1.nodes "root" = some rt ∧
      rt.children = ["node_" ++ env.suffix]) := by
  have hne := nodeId_ne_root env.suffix
  have hcand : getChildCandidates index "root" (some 1) = [] := by
    simp [getChildCandidates, hnodes, jsGet_cons, hchildren]
  have hlen : ¬ 1 < index.nodes.length := by rw [hnodes]; simp
  have hrootget : jsGet index.nodes "root" = some rootNode := by
    rw [hnodes, jsGet_cons, if_pos rfl]
  have hfresh : jsGet index.nodes ("node_" ++ env.suffix) = none := by
    rw [hnodes, jsGet_cons, if_neg (Ne.symm hne)]
    rfl
  rw [classifyPrompt, hcache]
  dsimp only
  rw [hemb]
  dsimp only
  rw [hcand]
  rw [show bestMatch v [] s.thresholdHigh = none from rfl]
  dsimp only
  rw [if_neg hlen]
  refine ⟨rfl, ?_, ?_, ?_, ?_⟩
  · have hlbls : ((jsValues index.nodes).filter fun n => 0 < n.rank).map
        (·.label) = [] := by
      simp [jsValues, hnodes, hrank]
    simp [fetchLabel, hlbls]
  · obtain ⟨n, hn, _, hrk, hpi⟩ := commit_spawn_get index "root"
      (fetchLabel p.firstSentence index env).1 1 (some v) env.now env.suffix
      (hashPrompt p.fullText) 0 true p.index
    exact ⟨n, hn, hrk, hpi⟩
  · rw [commit_embeddings, spawnNode_embeddings_some, jsGet_jsSet_self]
  · obtain ⟨rt, hrt, hch⟩ := commit_spawn_parent_get index "root"
      (fetchLabel p.firstSentence index env).1 1 (some v) env.now env.suffix
      (hashPrompt p.fullText) 0 true p.index rootNode hrootget hfresh
    exact ⟨rt, hrt, by rw [hch, hchildren, List.nil_append]⟩

/-- Witness for the C4 theorem at a concrete cold-start state. -/
theorem classifyPrompt_cold_start_witness :
    (classifyPrompt (createIndex "c" 7) ⟨3, "ab", "ab"⟩ ⟨"k", 1, 0⟩
        ⟨Except.ok [2], Except.ok [2], Except.ok "L", 9, "w"⟩).1 =
      Except.ok ⟨"node_" ++ "w", 0, true⟩ ∧
    (classifyPrompt (createIndex "c" 7) ⟨3, "ab", "ab"⟩ ⟨"k", 1, 0⟩
        ⟨Except.ok [2], Except.ok [2], Except.ok "L", 9, "w"⟩).2.2 =
      [CapCall.embed "ab", CapCall.label "ab" []] ∧
    (∃ n, jsGet (classifyPrompt (createIndex "c" 7) ⟨3, "ab", "ab"⟩ ⟨"k", 1, 0⟩
        ⟨Except.ok [2], Except.ok [2], Except.ok "L", 9, "w"⟩).2.1.nodes
        ("node_" ++ "w") = some n ∧ n.rank = 1 ∧ n.promptIndices = [3]) ∧
    jsGet (classifyPrompt (createIndex "c" 7) ⟨3, "ab", "ab"⟩ ⟨"k", 1, 0⟩
        ⟨Except.ok [2], Except.ok [2], Except.ok "L", 9, "w"⟩).2.1.embeddings
      ("node_" ++ "w") = some [2] ∧
    (∃ rt, jsGet (classifyPrompt (createIndex "c" 7) ⟨3, "ab", "ab"⟩ ⟨"k", 1, 0⟩
        ⟨Except.ok [2], Except.ok [2], Except.ok "L", 9, "w"⟩).2.1.nodes
        "root" = some rt ∧ rt.children = ["node_" ++ "w"]) :=
  classifyPrompt_cold_start (createIndex "c" 7) ⟨3, "ab", "ab"⟩ ⟨"k", 1, 0⟩
    ⟨Except.ok [2], Except.ok [2], Except.ok "L", 9, "w"⟩ _ [2]
    rfl rfl rfl rfl rfl

/-- **C5.**  A rank-1 hit at `thresholdHigh` whose children all miss at
`thresholdHigh` makes `classifyPrompt` spawn a new rank-2 node under the
matched rank-1 node carrying the sentence vector, attach the passage
there, and return `isNewNode = true` with confidence equal to the rank-1
match's score. -/
theorem classifyPrompt_rank2_spawn_inherits_rank1_score
    (index : ConversationIndex) (p : PromptInput) (s : Settings)
    (env : PipelineEnv) (v : List ℝ) (rank1Hit : MatchResult)
    (hcache : jsGet index.cache (hashPrompt p.fullText) = none)
    (hemb : env.embedSentence = Except.ok v)
    (hr1 : bestMatch v (getChildCandidates index "root" (some 1))
      s.thresholdHigh = some rank1Hit)
    (hr2 : bestMatch v (getChildCandidates index rank1Hit.id (some 2))
      s.thresholdHigh = none)
    (hfresh : jsGet index.nodes ("node_" ++ env.suffix) = none) :
    (classifyPrompt index p s env).1 =
      Except.ok ⟨"node_" ++ env.suffix, rank1Hit.score, true⟩ ∧
    (∃ n, jsGet (classifyPrompt index p s env).2.1.nodes
        ("node_" ++ env.suffix) = some n ∧ n.rank = 2 ∧
        n.promptIndices = [p.index]) ∧
    jsGet (classifyPrompt index p s env).2.1.embeddings
      ("node_" ++ env.suffix) = some v ∧
    (∃ pn, jsGet (classifyPrompt index p s env).2.1.nodes rank1Hit.id =
        some pn ∧ "node_" ++ env.suffix ∈ pn.children) := by
  have hparent : ∃ pn, jsGet index.nodes rank1Hit.id = some pn := by
    rw [bestMatch_eq_spec_aux] at hr1
    obtain ⟨_, c, hmem, _, hid, _⟩ :=
      bestMatchSpec_some_sound v s.thresholdHigh _ rank1Hit hr1
    obtain ⟨n, hn, _, _⟩ := getChildCandidates_mem hmem
    exact ⟨n, by rw [hid]; exact hn⟩
  obtain ⟨pn, hpn⟩ := hparent
  rw [classifyPrompt, hcache]
  dsimp only
  rw [hemb]
  dsimp only
  rw [hr1]
  dsimp only
  rw [hr2]
  dsimp only
  refine ⟨rfl, ?_, ?_, ?_⟩
  · obtain ⟨n, hn, _, hrk, hpi⟩ := commit_spawn_get index rank1Hit.id
      (fetchLabel p.firstSentence index env).1 2 (some v) env.now env.suffix
      (hashPrompt p.fullText) rank1Hit.score true p.index
    exact ⟨n, hn, hrk, hpi⟩
  · rw [commit_embeddings, spawnNode_embeddings_some, jsGet_jsSet_self]
  · obtain ⟨pn', hpn', hch⟩ := commit_spawn_parent_get index rank1Hit.id
      (fetchLabel p.firstSentence index env).1 2 (some v) env.now env.suffix
      (hashPrompt p.fullText) rank1Hit.score true p.index pn hpn hfresh
    refine ⟨pn', hpn', ?_⟩
    rw [hch]
    exact List.mem_append_right _ (List.mem_singleton.mpr rfl)

/-- The concrete store used by the C5 witness: a root with one embedded
rank-1 child and nothing else. -/
def rank1State : ConversationIndex :=
  { conversationId := "c"
    prompts := []
    nodes := [("root", ⟨"root", "root", 0, ["n1"], [], 0, 0, 0⟩),
      ("n1", ⟨"n1", "L1", 1, [], [], 0, 0, 0⟩)]
    embeddings := [("n1", [1])]
    cache := [] }

/-- Witness for the C5 theorem at a concrete one-topic state. -/
theorem classifyPrompt_rank2_spawn_inherits_rank1_score_witness :
    (classifyPrompt rank1State ⟨4, "ab", "ab"⟩ ⟨"k", 1, 0⟩
        ⟨Except.ok [1], Except.ok [1], Except.ok "L", 9, "w"⟩).1 =
      Except.ok ⟨"node_" ++ "w", MatchResult.score ⟨"n1", 1⟩, true⟩ ∧
    (∃ n, jsGet (classifyPrompt rank1State ⟨4, "ab", "ab"⟩ ⟨"k", 1, 0⟩
        ⟨Except.ok [1], Except.ok [1], Except.ok "L", 9, "w"⟩).2.1.nodes
        ("node_" ++ "w") = some n ∧ n.rank = 2 ∧ n.promptIndices = [4]) ∧
    jsGet (classifyPrompt rank1State ⟨4, "ab", "ab"⟩ ⟨"k", 1, 0⟩
        ⟨Except.ok [1], Except.ok [1], Except.ok "L", 9, "w"⟩).2.1.embeddings
      ("node_" ++ "w") = some [1] ∧
    (∃ pn, jsGet (classifyPrompt rank1State ⟨4, "ab", "ab"⟩ ⟨"k", 1, 0⟩
        ⟨Except.ok [1], Except.ok [1], Except.ok "L", 9, "w"⟩).2.1.nodes
        (MatchResult.id ⟨"n1", 1⟩) = some pn ∧
      "node_" ++ "w" ∈ pn.children) :=
  classifyPrompt_rank2_spawn_inherits_rank1_score rank1State ⟨4, "ab", "ab"⟩
    ⟨"k", 1, 0⟩ ⟨Except.ok [1], Except.ok [1], Except.ok "L", 9, "w"⟩ [1]
    ⟨"n1", 1⟩ rfl rfl
    (by
      rw [show getChildCandidates rank1State "root" (some 1) = [⟨"n1", [1]⟩]
        from rfl]
      simp [bestMatch, bestMatchGo, cosineSimilarity, Real.sqrt_one])
    rfl rfl

/-- **C9.**  When the label capability fails (on an uncached passage whose
sentence embedding succeeded), `classifyPrompt` still succeeds, and if it
spawned a node, that node's label is the whitespace-trimmed 40-character
prefix of the sentence text — label failure is never fatal. -/
theorem classifyPrompt_label_failure_fallback (index : ConversationIndex)
    (p : PromptInput) (s : Settings) (env : PipelineEnv) (v : List ℝ)
    (e : String)
    (hcache : jsGet index.cache (hashPrompt p.fullText) = none)
    (hemb : env.embedSentence = Except.ok v)
    (hlabel : env.labelRes = Except.error e) :
    ∃ r, (classifyPrompt index p s env).1 = Except.ok r ∧
      (r.isNewNode = true →
        ∃ n, jsGet (classifyPrompt index p s env).2.1.nodes r.nodeId =
            some n ∧ n.label = (p.firstSentence.take 40).trim) := by
  have hlbl : (fetchLabel p.firstSentence index env).1 =
      (p.firstSentence.take 40).trim := by
    rw [fetchLabel]
    dsimp only
    rw [hlabel]
  rw [classifyPrompt, hcache]
  dsimp only
  rw [hemb]
  dsimp only
  cases hr1 : bestMatch v (getChildCandidates index "root" (some 1))
      s.thresholdHigh with
  | some rank1Hit =>
    dsimp only
    cases hr2 : bestMatch v (getChildCandidates index rank1Hit.id (some 2))
        s.thresholdHigh with
    | some rank2Hit =>
      dsimp only
      exact ⟨_, rfl, fun h => by rw [commit_fst] at h; simp at h⟩
    | none =>
      dsimp only
      refine ⟨_, rfl, fun _ => ?_⟩
      obtain ⟨n, hn, hl, _, _⟩ := commit_spawn_get index rank1Hit.id
        (fetchLabel p.firstSentence index env).1 2 (some v) env.now env.suffix
        (hashPrompt p.fullText) rank1Hit.score true p.index
      exact ⟨n, hn, by rw [hl, hlbl]⟩
  | none =>
    dsimp only
    by_cases hlen : 1 < index.nodes.length
    · rw [if_pos hlen]
      cases hfull : env.embedFull with
      | ok fv =>
        dsimp only
        cases hfh : bestMatch fv (getAllEmbeddedCandidates index)
            s.thresholdLow with
        | some fullHit =>
          dsimp only
          cases hhit : jsGet index.nodes fullHit.id with
          | some hitNode =>
            dsimp only
            by_cases hrk : hitNode.rank = 1
            · rw [if_pos hrk]
              refine ⟨_, rfl, fun _ => ?_⟩
              obtain ⟨n, hn, hl, _, _⟩ := commit_spawn_get index fullHit.id
                (fetchLabel p.firstSentence index env).1 2 (some fv) env.now
                env.suffix (hashPrompt p.fullText) fullHit.score true p.index
              exact ⟨n, hn, by rw [hl, hlbl]⟩
            · rw [if_neg hrk]
              exact ⟨_, rfl, fun h => by rw [commit_fst] at h; simp at h⟩
          | none =>
            dsimp only
            exact ⟨_, rfl, fun h => by rw [commit_fst] at h; simp at h⟩
        | none =>
          dsimp only
          refine ⟨_, rfl, fun _ => ?_⟩
          obtain ⟨n, hn, hl, _, _⟩ := commit_spawn_get index "root"
            (fetchLabel p.firstSentence index env).1 1 (some v) env.now
            env.suffix (hashPrompt p.fullText) 0 true p.index
          exact ⟨n, hn, by rw [hl, hlbl]⟩
      | error e2 =>
        dsimp only
        refine ⟨_, rfl, fun _ => ?_⟩
        obtain ⟨n, hn, hl, _, _⟩ := commit_spawn_get index "root"
          (fetchLabel p.firstSentence index env).1 1 (some v) env.now
          env.suffix (hashPrompt p.fullText) 0 true p.index
        exact ⟨n, hn, by rw [hl, hlbl]⟩
    · rw [if_neg hlen]
      refine ⟨_, rfl, fun _ => ?_⟩
      obtain ⟨n, hn, hl, _, _⟩ := commit_spawn_get index "root"
        (fetchLabel p.firstSentence index env).1 1 (some v) env.now
        env.suffix (hashPrompt p.fullText) 0 true p.index
      exact ⟨n, hn, by rw [hl, hlbl]⟩

/-- Witness for the C9 theorem at a concrete cold-start state with a
failing label capability. -/
theorem classifyPrompt_label_failure_fallback_witness :
    ∃ r, (classifyPrompt (createIndex "c" 0) ⟨0, "a", "a"⟩ ⟨"k", 1, 0⟩
        ⟨Except.ok [1], Except.ok [1], Except.error "x", 0, "s"⟩).1 =
      Except.ok r ∧
      (r.isNewNode = true →
        ∃ n, jsGet (classifyPrompt (createIndex "c" 0) ⟨0, "a", "a"⟩
            ⟨"k", 1, 0⟩ ⟨Except.ok [1], Except.ok [1], Except.error "x", 0,
              "s"⟩).2.1.nodes r.nodeId = some n ∧
          n.label = (String.take "a" 40).trim) :=
  classifyPrompt_label_failure_fallback (createIndex "c" 0) ⟨0, "a", "a"⟩
    ⟨"k", 1, 0⟩ ⟨Except.ok [1], Except.ok [1], Except.error "x", 0, "s"⟩
    [1] "x" rfl rfl rfl

/-! ## Correctness of the recount pass

The hierarchy of every reachable store is a forest of depth at most 3
(root → rank 1 → rank 2).  The recount is analysed against canonical
per-node weights computed from `promptIndices` alone, which are stable
under recounting. -/

/-- The spec's per-node sum `sum(child.promptCount for child in children)`
(a missing child contributes 0). -/
def childSum (nodes : JsMap OutlineNode) (cs : List String) : Nat :=
  (cs.map fun c => (jsGet nodes c).elim 0 OutlineNode.promptCount).sum

/-- Canonical weight of a childless node: its own direct prompt count. -/
def leafW (nodes : JsMap OutlineNode) (c : String) : Nat :=
  (jsGet nodes c).elim 0 fun m => m.promptIndices.length

/-- Canonical weight of a node whose children are childless. -/
def midW (nodes : JsMap OutlineNode) (a : String) : Nat :=
  (jsGet nodes a).elim 0 fun m =>
    m.promptIndices.length + (m.children.map (leafW nodes)).sum

/-- A `ShapeEq`-transfer: an entry of the baseline map is present in the
current map with the same shape fields. -/
theorem ShapeEq.get_of_base {n0 n1 : JsMap OutlineNode} (h : ShapeEq n0 n1)
    {k : String} {m : OutlineNode} (hk : jsGet n0 k = some m) :
    ∃ m', jsGet n1 k = some m' ∧ m'.id = m.id ∧ m'.label = m.label ∧
      m'.rank = m.rank ∧ m'.children = m.children ∧
      m'.promptIndices = m.promptIndices := by
  have hh := h k
  rw [hk] at hh
  cases hg : jsGet n1 k with
  | none => rw [hg] at hh; simp at hh
  | some m' =>
    rw [hg] at hh
    have hh' : eraseCount m' = eraseCount m := by simpa using hh
    obtain ⟨h1, h2, h3, h4, h5⟩ := eraseCount_fields hh'
    exact ⟨m', rfl, h1, h2, h3, h4, h5⟩

theorem ShapeEq.none_of_base {n0 n1 : JsMap OutlineNode} (h : ShapeEq n0 n1)
    {k : String} (hk : jsGet n0 k = none) : jsGet n1 k = none := by
  have hh := h k
  rw [hk] at hh
  cases hg : jsGet n1 k with
  | none => rfl
  | some m => rw [hg] at hh; simp at hh

theorem leafW_congr {n0 n1 : JsMap OutlineNode} (h : ShapeEq n0 n1)
    (c : String) : leafW n1 c = leafW n0 c := by
  rw [leafW, leafW]
  cases h1 : jsGet n0 c with
  | none => rw [h.none_of_base h1]
  | some m =>
    obtain ⟨m', hm', _, _, _, _, hpi⟩ := h.get_of_base h1
    rw [hm']
    dsimp only [Option.elim]
    rw [hpi]

theorem midW_congr {n0 n1 : JsMap OutlineNode} (h : ShapeEq n0 n1)
    (a : String) : midW n1 a = midW n0 a := by
  rw [midW, midW]
  cases h1 : jsGet n0 a with
  | none => rw [h.none_of_base h1]; rfl
  | some m =>
    obtain ⟨m', hm', _, _, _, hch, hpi⟩ := h.get_of_base h1
    rw [hm']
    dsimp only [Option.elim]
    rw [hpi, hch]
    congr 1
    exact congrArg List.sum (List.map_congr_left fun c _ => leafW_congr h c)

theorem shapeEq_jsSet_count {n1 : JsMap OutlineNode} {k : String}
    {m : OutlineNode} (hk : jsGet n1 k = some m) (cnt : Nat) :
    ShapeEq n1 (jsSet n1 k { m with promptCount := cnt }) := by
  intro k'
  by_cases hkk : k = k'
  · subst hkk
    rw [jsGet_jsSet_self, hk]
    rfl
  · rw [jsGet_jsSet_ne _ _ _ _ hkk]

/-- Recounting a childless node just writes its canonical weight. -/
theorem recountSubtree_leaf (fuel : Nat) (nodes : JsMap OutlineNode)
    (c : String) (m : OutlineNode) (hget : jsGet nodes c = some m)
    (hch : m.children = []) :
    recountSubtree (fuel + 1) nodes c =
      (jsSet nodes c { m with promptCount := m.promptIndices.length },
        m.promptIndices.length) := by
  rw [recountSubtree, hget]
  dsimp only
  rw [hch]
  simp

/-- The child loop of the recount, over childless children: it adds up
their canonical weights, rewrites exactly their `promptCount`s, and leaves
everything else untouched. -/
theorem recount_fold_leaves (fuel : Nat) (n0 : JsMap OutlineNode)
    (cs : List String) :
    ∀ (n1 : JsMap OutlineNode) (k0 : Nat), ShapeEq n0 n1 →
    (∀ c ∈ cs, ∃ mc, jsGet n0 c = some mc ∧ mc.children = []) →
    (cs.foldl (fun acc childId =>
        let r := recountSubtree (fuel + 1) acc.1 childId
        (r.1, acc.2 + r.2)) (n1, k0)).2 = k0 + (cs.map (leafW n0)).sum ∧
    ShapeEq n0 (cs.foldl (fun acc childId =>
        let r := recountSubtree (fuel + 1) acc.1 childId
        (r.1, acc.2 + r.2)) (n1, k0)).1 ∧
    (∀ c ∈ cs, ∀ mc', jsGet (cs.foldl (fun acc childId =>
        let r := recountSubtree (fuel + 1) acc.1 childId
        (r.1, acc.2 + r.2)) (n1, k0)).1 c = some mc' →
      mc'.promptCount = leafW n0 c) ∧
    (∀ k, k ∉ cs → jsGet (cs.foldl (fun acc childId =>
        let r := recountSubtree (fuel + 1) acc.1 childId
        (r.1, acc.2 + r.2)) (n1, k0)).1 k = jsGet n1 k) := by
  induction cs with
  | nil =>
    intro n1 k0 hsh _
    refine ⟨by simp, hsh, by simp, fun k _ => rfl⟩
  | cons c rest ih =>
    intro n1 k0 hsh hch
    obtain ⟨mc, hmc, hmcch⟩ := hch c (List.mem_cons_self _ _)
    obtain ⟨mc', hmc', _, _, _, hch', hpi'⟩ := hsh.get_of_base hmc
    have hleaf := recountSubtree_leaf fuel n1 c mc' hmc' (hch'.trans hmcch)
    have hlw : mc'.promptIndices.length = leafW n0 c := by
      rw [leafW, hmc]
      dsimp only [Option.elim]
      rw [hpi']
    rw [List.foldl_cons]
    dsimp only
    rw [hleaf]
    dsimp only
    set n2 := jsSet n1 c { mc' with promptCount := mc'.promptIndices.length }
      with hn2
    have hsh2 : ShapeEq n0 n2 := hsh.trans (shapeEq_jsSet_count hmc' _)
    obtain ⟨ih1, ih2, ih3, ih4⟩ := ih n2 (k0 + mc'.promptIndices.length) hsh2
      (fun c' hc' => hch c' (List.mem_cons_of_mem _ hc'))
    refine ⟨?_, ih2, ?_, ?_⟩
    · rw [ih1, hlw]
      simp [Nat.add_assoc]
    · intro c' hc' mcf hmcf
      rcases List.mem_cons.mp hc' with rfl | hmem
      · by_cases hcr : c' ∈ rest
        · exact ih3 c' hcr mcf hmcf
        · rw [ih4 c' hcr] at hmcf
          rw [hn2, jsGet_jsSet_self] at hmcf
          cases hmcf
          exact hlw
      · exact ih3 c' hmem mcf hmcf
    · intro k hk
      rw [ih4 k (fun hm => hk (List.mem_cons_of_mem _ hm)), hn2,
        jsGet_jsSet_ne _ _ _ _
          (fun hc => hk (by rw [← hc]; exact List.mem_cons_self _ _))]

/-- Recounting a node all of whose children are childless: the node gets
its canonical weight, its children get theirs, everything else is
untouched. -/
theorem recountSubtree_mid (fuel : Nat) (n0 n1 : JsMap OutlineNode)
    (a : String) (m0 : OutlineNode) (hsh : ShapeEq n0 n1)
    (hget0 : jsGet n0 a = some m0) (ha : a ∉ m0.children)
    (hch : ∀ c ∈ m0.children, ∃ mc, jsGet n0 c = some mc ∧ mc.children = []) :
    (recountSubtree (fuel + 2) n1 a).2 = midW n0 a ∧
    ShapeEq n0 (recountSubtree (fuel + 2) n1 a).1 ∧
    (∀ ma', jsGet (recountSubtree (fuel + 2) n1 a).1 a = some ma' →
      ma'.promptCount = midW n0 a) ∧
    (∀ c ∈ m0.children, ∀ mc',
      jsGet (recountSubtree (fuel + 2) n1 a).1 c = some mc' →
      mc'.promptCount = leafW n0 c) ∧
    (∀ k, k ≠ a → k ∉ m0.children →
      jsGet (recountSubtree (fuel + 2) n1 a).1 k = jsGet n1 k) := by
  obtain ⟨m1, hm1, _, _, _, hch1, hpi1⟩ := hsh.get_of_base hget0
  have hmid : midW n0 a =
      m0.promptIndices.length + (m0.children.map (leafW n0)).sum := by
    rw [midW, hget0]
    rfl
  rw [show fuel + 2 = (fuel + 1) + 1 from rfl, recountSubtree, hm1]
  dsimp only
  obtain ⟨f1, f2, f3, f4⟩ :=
    recount_fold_leaves fuel n0 m1.children n1 0 hsh
      (by rw [hch1]; exact hch)
  set n2 := (m1.children.foldl (fun acc childId =>
      let r := recountSubtree (fuel + 1) acc.1 childId
      (r.1, acc.2 + r.2)) (n1, 0)).1 with hn2
  have hn2a : jsGet n2 a = some m1 := by
    rw [f4 a (by rw [hch1]; exact ha), hm1]
  have htot : m1.promptIndices.length + (m1.children.foldl
      (fun acc childId =>
        let r := recountSubtree (fuel + 1) acc.1 childId
        (r.1, acc.2 + r.2)) (n1, 0)).2 = midW n0 a := by
    rw [f1, hpi1, hmid, hch1]
    simp
  refine ⟨htot, f2.trans (shapeEq_jsSet_count hn2a _), ?_, ?_, ?_⟩
  · intro ma' hma'
    rw [jsGet_jsSet_self] at hma'
    cases hma'
    exact htot
  · intro c hc mc' hmc'
    rw [jsGet_jsSet_ne _ _ _ _ (fun he => ha (by rw [he]; exact hc))] at hmc'
    exact f3 c (by rw [hch1]; exact hc) mc' hmc'
  · intro k hka hkch
    rw [jsGet_jsSet_ne _ _ _ _ (Ne.symm hka)]
    exact f4 k (by rw [hch1]; exact hkch)

/-- The child loop of the recount at the root level: each child and
grandchild gets its canonical weight; everything else is untouched. -/
theorem recount_fold_mids (fuel : Nat) (n0 : JsMap OutlineNode)
    (cs : List String) :
    ∀ (n1 : JsMap OutlineNode) (k0 : Nat), ShapeEq n0 n1 →
    (∀ c ∈ cs, ∃ mc, jsGet n0 c = some mc ∧
      (∀ d ∈ mc.children, ∃ md, jsGet n0 d = some md ∧ md.children = []) ∧
      (∀ d ∈ mc.children, d ∉ cs)) →
    (∀ c ∈ cs, ∀ c' ∈ cs, ∀ mc', jsGet n0 c' = some mc' →
      c ∉ mc'.children) →
    (cs.foldl (fun acc childId =>
        let r := recountSubtree (fuel + 2) acc.1 childId
        (r.1, acc.2 + r.2)) (n1, k0)).2 = k0 + (cs.map (midW n0)).sum ∧
    ShapeEq n0 (cs.foldl (fun acc childId =>
        let r := recountSubtree (fuel + 2) acc.1 childId
        (r.1, acc.2 + r.2)) (n1, k0)).1 ∧
    (∀ c ∈ cs, ∀ mc', jsGet (cs.foldl (fun acc childId =>
        let r := recountSubtree (fuel + 2) acc.1 childId
        (r.1, acc.2 + r.2)) (n1, k0)).1 c = some mc' →
      mc'.promptCount = midW n0 c) ∧
    (∀ d, (∃ c ∈ cs, ∃ mc, jsGet n0 c = some mc ∧ d ∈ mc.children) →
      ∀ md', jsGet (cs.foldl (fun acc childId =>
        let r := recountSubtree (fuel + 2) acc.1 childId
        (r.1, acc.2 + r.2)) (n1, k0)).1 d = some md' →
      md'.promptCount = leafW n0 d) ∧
    (∀ k, k ∉ cs →
      (∀ c ∈ cs, ∀ mc, jsGet n0 c = some mc → k ∉ mc.children) →
      jsGet (cs.foldl (fun acc childId =>
        let r := recountSubtree (fuel + 2) acc.1 childId
        (r.1, acc.2 + r.2)) (n1, k0)).1 k = jsGet n1 k) := by
  induction cs with
  | nil =>
    intro n1 k0 hsh _ _
    exact ⟨by simp, hsh, by simp, fun d hd => by simp at hd,
      fun k _ _ => rfl⟩
  | cons c rest ih =>
    intro n1 k0 hsh hmem hnograndself
    obtain ⟨mc, hmc, hgleaf, hgnotcs⟩ := hmem c (List.mem_cons_self _ _)
    have hcnotself : c ∉ mc.children :=
      hnograndself c (List.mem_cons_self _ _) c (List.mem_cons_self _ _) mc hmc
    obtain ⟨l1, l2, l3, l4, l5⟩ :=
      recountSubtree_mid fuel n0 n1 c mc hsh hmc hcnotself hgleaf
    rw [List.foldl_cons]
    dsimp only
    set n2 := (recountSubtree (fuel + 2) n1 c).1 with hn2
    rw [l1]
    obtain ⟨ih1, ih2, ih3, ih4, ih5⟩ := ih n2 (k0 + midW n0 c) l2
      (fun c' hc' => by
        obtain ⟨mc', h1, h2, h3⟩ := hmem c' (List.mem_cons_of_mem _ hc')
        exact ⟨mc', h1, h2, fun d hd hdr => h3 d hd (List.mem_cons_of_mem _ hdr)⟩)
      (fun c' hc' c'' hc'' => hnograndself c' (List.mem_cons_of_mem _ hc')
        c'' (List.mem_cons_of_mem _ hc''))
    refine ⟨?_, ih2, ?_, ?_, ?_⟩
    · rw [ih1]
      simp [Nat.add_assoc]
    · intro c' hc' mcf hmcf
      rcases List.mem_cons.mp hc' with rfl | hmem'
      · by_cases hcr : c' ∈ rest
        · exact ih3 c' hcr mcf hmcf
        · have hnotg : ∀ c'' ∈ rest, ∀ mc'', jsGet n0 c'' = some mc'' →
              c' ∉ mc''.children := fun c'' hc'' mc'' hmc'' =>
            hnograndself c' (List.mem_cons_self _ _) c''
              (List.mem_cons_of_mem _ hc'') mc'' hmc''
          rw [ih5 c' hcr hnotg] at hmcf
          exact l3 mcf hmcf
      · exact ih3 c' hmem' mcf hmcf
    · intro d hd mdf hmdf
      obtain ⟨c0, hc0, mc0, hmc0, hdch⟩ := hd
      rcases List.mem_cons.mp hc0 with rfl | hc0mem
      · have hmc0c : mc0 = mc := by rw [hmc0] at hmc; cases hmc; rfl
        subst hmc0c
        have hdnotrest : d ∉ rest := fun hdr =>
          hgnotcs d hdch (List.mem_cons_of_mem _ hdr)
        by_cases hdg : ∃ c' ∈ rest, ∃ mc', jsGet n0 c' = some mc' ∧
            d ∈ mc'.children
        · exact ih4 d (by
            obtain ⟨c', hc', mc', hmc', hd'⟩ := hdg
            exact ⟨c', hc', mc', hmc', hd'⟩) mdf hmdf
        · have hnotg : ∀ c'' ∈ rest, ∀ mc'', jsGet n0 c'' = some mc'' →
              d ∉ mc''.children := fun c'' hc'' mc'' hmc'' hdm =>
            hdg ⟨c'', hc'', mc'', hmc'', hdm⟩
          rw [ih5 d hdnotrest hnotg] at hmdf
          exact l4 d hdch mdf hmdf
      · exact ih4 d ⟨c0, hc0mem, mc0, hmc0, hdch⟩ mdf hmdf
    · intro k hk hkg
      have hkrest : k ∉ rest := fun hm => hk (List.mem_cons_of_mem _ hm)
      have hkgrest : ∀ c' ∈ rest, ∀ mc', jsGet n0 c' = some mc' →
          k ∉ mc'.children := fun c' hc' mc' hmc' =>
        hkg c' (List.mem_cons_of_mem _ hc') mc' hmc'
      rw [ih5 k hkrest hkgrest]
      exact l5 k (fun he => hk (by rw [he]; exact List.mem_cons_self _ _))
        (hkg c (List.mem_cons_self _ _) mc hmc)

/-- Reachability along `children` edges in a node map. -/
inductive ReachFrom (nodes : JsMap OutlineNode) (a : String) : String → Prop
  | refl : ReachFrom nodes a a
  | step {b c : String} {m : OutlineNode} : ReachFrom nodes a b →
      jsGet nodes b = some m → c ∈ m.children → ReachFrom nodes a c

/-- Every child listed by a node exists and has the next rank. -/
def ChildRank (nodes : JsMap OutlineNode) : Prop :=
  ∀ k n, jsGet nodes k = some n → ∀ c ∈ n.children,
    ∃ m, jsGet nodes c = some m ∧ m.rank = n.rank + 1

/-- Every node's rank is at most 2. -/
def RankLe (nodes : JsMap OutlineNode) : Prop :=
  ∀ k n, jsGet nodes k = some n → n.rank ≤ 2

/-- The count invariant of the spec: every node's `promptCount` equals its
direct placements plus the sum of its children's counts. -/
def countOK (nodes : JsMap OutlineNode) : Prop :=
  ∀ k n, jsGet nodes k = some n →
    n.promptCount = n.promptIndices.length + childSum nodes n.children

theorem rank2_no_children {nodes : JsMap OutlineNode} (hcr : ChildRank nodes)
    (hrl : RankLe nodes) {d : String} {md : OutlineNode}
    (hget : jsGet nodes d = some md) (h2 : md.rank = 2) :
    md.children = [] := by
  rw [List.eq_nil_iff_forall_not_mem]
  intro x hx
  obtain ⟨mx, hmx, hrank⟩ := hcr d md hget x hx
  have := hrl x mx hmx
  rw [hrank, h2] at this
  omega

/-- Under the rank discipline, every node reachable from the root is the
root, a child of the root, or a grandchild of the root. -/
theorem reach_class {nodes : JsMap OutlineNode} {r0 : OutlineNode}
    (hroot : jsGet nodes "root" = some r0) (hr0 : r0.rank = 0)
    (hcr : ChildRank nodes) (hrl : RankLe nodes) {k : String}
    (hk : ReachFrom nodes "root" k) :
    k = "root" ∨ k ∈ r0.children ∨
      (∃ b mb, b ∈ r0.children ∧ jsGet nodes b = some mb ∧
        k ∈ mb.children) := by
  induction hk with
  | refl => exact Or.inl rfl
  | step hb hget hmem ih =>
    rename_i b c m
    rcases ih with rfl | hbc | ⟨b', mb', hb', hgetb', hbmem⟩
    · rw [hroot] at hget
      cases hget
      exact Or.inr (Or.inl hmem)
    · exact Or.inr (Or.inr ⟨b, m, hbc, hget, hmem⟩)
    · obtain ⟨mb2, hmb2, hrank2⟩ := hcr b' mb' hgetb' b hbmem
      rw [hget] at hmb2
      cases hmb2
      obtain ⟨mb3, hmb3, hrank3⟩ := hcr "root" r0 hroot b' hb'
      rw [hgetb'] at hmb3
      cases hmb3
      obtain ⟨mc, hmc, hrankc⟩ := hcr b m hget c hmem
      have hle := hrl c mc hmc
      rw [hrankc, hrank2, hrank3, hr0] at hle
      omega

/-- `updatePromptCounts` establishes the count invariant on every store
whose hierarchy satisfies the structural invariants of reachable states. -/
theorem updatePromptCounts_establishes_counts (index : ConversationIndex)
    (r0 : OutlineNode) (hroot : jsGet index.nodes "root" = some r0)
    (hr0 : r0.rank = 0) (hcr : ChildRank index.nodes)
    (hrl : RankLe index.nodes)
    (hreach : ∀ k n, jsGet index.nodes k = some n →
      ReachFrom index.nodes "root" k) :
    countOK (updatePromptCounts index).nodes := by
  have hrootnotchild : ∀ mc, jsGet index.nodes "root" = some mc →
      ∀ c ∈ mc.children, c ≠ "root" := by
    intro mc hmc c hc he
    have hmcr0 : mc = r0 := Option.some.inj (hmc.symm.trans hroot)
    obtain ⟨m, hm, hrank⟩ := hcr "root" mc hmc c hc
    rw [he] at hm
    have hmr0 : m = r0 := Option.some.inj (hm.symm.trans hroot)
    rw [hmr0, hmcr0] at hrank
    omega
  -- the children of root are rank-1 nodes with childless children
  have hmems : ∀ c ∈ r0.children, ∃ mc, jsGet index.nodes c = some mc ∧
      (∀ d ∈ mc.children, ∃ md, jsGet index.nodes d = some md ∧
        md.children = []) ∧
      (∀ d ∈ mc.children, d ∉ r0.children) := by
    intro c hc
    obtain ⟨mc, hmc, hrank1⟩ := hcr "root" r0 hroot c hc
    rw [hr0] at hrank1
    refine ⟨mc, hmc, ?_, ?_⟩
    · intro d hd
      obtain ⟨md, hmd, hrank2⟩ := hcr c mc hmc d hd
      rw [hrank1] at hrank2
      exact ⟨md, hmd, rank2_no_children hcr hrl hmd hrank2⟩
    · intro d hd hdc
      obtain ⟨md, hmd, hrank2⟩ := hcr c mc hmc d hd
      obtain ⟨md', hmd', hrank1'⟩ := hcr "root" r0 hroot d hdc
      rw [hmd] at hmd'
      cases hmd'
      rw [hrank1] at hrank2
      rw [hr0] at hrank1'
      omega
  have hnogrand : ∀ c ∈ r0.children, ∀ c' ∈ r0.children, ∀ mc',
      jsGet index.nodes c' = some mc' → c ∉ mc'.children := by
    intro c hc c' hc' mc' hmc' hcm
    obtain ⟨m1, hm1, hrank1⟩ := hcr "root" r0 hroot c hc
    obtain ⟨m1', hm1', hrank1'⟩ := hcr "root" r0 hroot c' hc'
    rw [hm1'] at hmc'
    cases hmc'
    obtain ⟨m2, hm2, hrank2⟩ := hcr c' mc' hm1' c hcm
    rw [hm1] at hm2
    cases hm2
    rw [hr0] at hrank1 hrank1'
    omega
  have hrootnotch : "root" ∉ r0.children := fun h =>
    hrootnotchild r0 hroot "root" h rfl
  have hrootng : ∀ c ∈ r0.children, ∀ mc, jsGet index.nodes c = some mc →
      "root" ∉ mc.children := by
    intro c hc mc hmc hrm
    obtain ⟨m, hm, hrank⟩ := hcr c mc hmc "root" hrm
    rw [hroot] at hm
    cases hm
    obtain ⟨m1, hm1, hrank1⟩ := hcr "root" r0 hroot c hc
    rw [hmc] at hm1
    cases hm1
    rw [hr0] at hrank1
    omega
  rw [updatePromptCounts,
    show index.nodes.length + 3 = (index.nodes.length + 2) + 1 from rfl,
    recountSubtree, hroot]
  dsimp only
  obtain ⟨g1, g2, g3, g4, g5⟩ := recount_fold_mids index.nodes.length
    index.nodes r0.children index.nodes 0 (ShapeEq.refl index.nodes)
    hmems hnogrand
  set n2 := (r0.children.foldl (fun acc childId =>
      let r := recountSubtree (index.nodes.length + 2) acc.1 childId
      (r.1, acc.2 + r.2)) (index.nodes, 0)).1 with hn2
  have hn2root : jsGet n2 "root" = some r0 := by
    rw [g5 "root" hrootnotch hrootng, hroot]
  have hstF : ShapeEq index.nodes (jsSet n2 "root"
      { r0 with promptCount := r0.promptIndices.length +
          (r0.children.foldl (fun acc childId =>
            let r := recountSubtree (index.nodes.length + 2) acc.1 childId
            (r.1, acc.2 + r.2)) (index.nodes, 0)).2 }) :=
    g2.trans (shapeEq_jsSet_count hn2root _)
  intro k n hk
  obtain ⟨nb, hnb, hfields⟩ := hstF.get_back hk
  obtain ⟨-, -, -, hfch, hfpi⟩ := eraseCount_fields hfields
  rcases reach_class hroot hr0 hcr hrl (hreach k nb hnb) with rfl | hkc |
    ⟨b, mb, hb, hgetb, hkmem⟩
  · -- k = "root"
    rw [jsGet_jsSet_self] at hk
    cases hk
    dsimp only
    rw [g1]
    have hsum : childSum (jsSet n2 "root"
        { r0 with promptCount := r0.promptIndices.length +
            (0 + (r0.children.map (midW index.nodes)).sum) }) r0.children =
        (r0.children.map (midW index.nodes)).sum := by
      rw [childSum]
      congr 1
      refine List.map_congr_left fun c hc => ?_
      have hcne : "root" ≠ c := Ne.symm (hrootnotchild r0 hroot c hc)
      rw [jsGet_jsSet_ne _ _ _ _ hcne]
      obtain ⟨mc, hmc, -, -⟩ := hmems c hc
      obtain ⟨mc', hmc', -, -, -, -, -⟩ := g2.get_of_base hmc
      rw [hmc']
      exact g3 c hc mc' hmc'
    rw [hsum]
    simp
  · -- k is a child of the root
    have hkne : "root" ≠ k := Ne.symm (hrootnotchild r0 hroot k hkc)
    rw [jsGet_jsSet_ne _ _ _ _ hkne] at hk
    obtain ⟨mc, hmc, hgleaf, -⟩ := hmems k hkc
    have hnbmc : nb = mc := Option.some.inj (hnb.symm.trans hmc)
    rw [g3 k hkc n hk]
    have hmw : midW index.nodes k =
        mc.promptIndices.length + (mc.children.map (leafW index.nodes)).sum := by
      rw [midW, hmc]
      rfl
    rw [hmw, hfpi, hfch, hnbmc]
    congr 1
    rw [childSum]
    congr 1
    refine (List.map_congr_left fun d hd => ?_).symm
    have hdne : "root" ≠ d := fun he =>
      hrootng k hkc mc hmc (by rw [he]; exact hd)
    rw [jsGet_jsSet_ne _ _ _ _ hdne]
    obtain ⟨md, hmd, -⟩ := hgleaf d hd
    obtain ⟨md', hmd', -, -, -, -, -⟩ := g2.get_of_base hmd
    rw [hmd']
    dsimp only [Option.elim]
    rw [g4 d ⟨k, hkc, mc, hmc, hd⟩ md' hmd']
  · -- k is a grandchild of the root
    obtain ⟨mk, hmk, hrank2⟩ := hcr b mb hgetb k hkmem
    have hnbmk : nb = mk := by rw [hnb] at hmk; cases hmk; rfl
    subst hnbmk
    obtain ⟨mb1, hmb1, hrank1⟩ := hcr "root" r0 hroot b hb
    have hmbeq : mb1.rank = mb.rank :=
      congrArg OutlineNode.rank (Option.some.inj (hmb1.symm.trans hgetb))
    have hkrank : nb.rank = 2 := by
      rw [hr0] at hrank1
      omega
    have hkchnil : nb.children = [] := rank2_no_children hcr hrl hmk hkrank
    have hkne : "root" ≠ k := by
      intro he
      rw [← he, hroot] at hmk
      cases hmk
      rw [hr0] at hkrank
      cases hkrank
    rw [jsGet_jsSet_ne _ _ _ _ hkne] at hk
    rw [g4 k ⟨b, hb, mb, hgetb, hkmem⟩ n hk]
    rw [leafW, hmk]
    dsimp only [Option.elim]
    rw [hfpi, hfch, hkchnil]
    rw [childSum]
    simp

/-! ## Structural invariants of reachable stores -/

theorem mem_jsSet {α} {m : JsMap α} {k : String} {v : α} {p : String × α}
    (h : p ∈ jsSet m k v) : p ∈ m ∨ p = (k, v) := by
  induction m with
  | nil => simpa [jsSet] using h
  | cons q rest ih =>
    rw [jsSet] at h
    by_cases hq : q.1 = k
    · rw [if_pos hq] at h
      rcases List.mem_cons.mp h with rfl | hm
      · exact Or.inr rfl
      · exact Or.inl (List.mem_cons_of_mem _ hm)
    · rw [if_neg hq] at h
      rcases List.mem_cons.mp h with rfl | hm
      · exact Or.inl (List.mem_cons_self _ _)
      · rcases ih hm with hm' | hm'
        · exact Or.inl (List.mem_cons_of_mem _ hm')
        · exact Or.inr hm'

theorem keys_jsSet_mem {α} {m : JsMap α} {k : String} {v : α} {x : String}
    (h : x ∈ (jsSet m k v).map Prod.fst) : x ∈ m.map Prod.fst ∨ x = k := by
  obtain ⟨p, hp, hx⟩ := List.mem_map.mp h
  rcases mem_jsSet hp with hm | rfl
  · exact Or.inl (hx ▸ List.mem_map_of_mem _ hm)
  · exact Or.inr hx.symm

theorem jsSet_keys_nodup {α} {m : JsMap α} (k : String) (v : α)
    (h : (m.map Prod.fst).Nodup) : ((jsSet m k v).map Prod.fst).Nodup := by
  induction m with
  | nil => simp [jsSet]
  | cons q rest ih =>
    rw [jsSet]
    rw [List.map_cons, List.nodup_cons] at h
    by_cases hq : q.1 = k
    · rw [if_pos hq]
      rw [List.map_cons, List.nodup_cons]
      exact ⟨hq ▸ h.1, h.2⟩
    · rw [if_neg hq]
      rw [List.map_cons, List.nodup_cons]
      refine ⟨fun hmem => ?_, ih h.2⟩
      rcases keys_jsSet_mem hmem with hm | rfl
      · exact h.1 hm
      · exact hq rfl

theorem jsGet_of_mem_nodup {α} {m : JsMap α} {p : String × α}
    (hnd : (m.map Prod.fst).Nodup) (hp : p ∈ m) : jsGet m p.1 = some p.2 := by
  induction m with
  | nil => simp at hp
  | cons q rest ih =>
    rw [List.map_cons, List.nodup_cons] at hnd
    rcases List.mem_cons.mp hp with rfl | hm
    · rw [jsGet_cons, if_pos rfl]
    · rw [jsGet_cons]
      by_cases hq : q.1 = p.1
      · exact absurd (hq ▸ List.mem_map_of_mem Prod.fst hm) hnd.1
      · rw [if_neg hq]
        exact ih hnd.2 hm

theorem jsGet_ne_none_of_mem {α} {m : JsMap α} {k : String} {v : α}
    (h : (k, v) ∈ m) : jsGet m k ≠ none := by
  induction m with
  | nil => simp at h
  | cons q rest ih =>
    rw [jsGet_cons]
    rcases List.mem_cons.mp h with rfl | hm
    · rw [if_pos rfl]
      exact Option.some_ne_none _
    · by_cases hq : q.1 = k
      · rw [if_pos hq]
        exact Option.some_ne_none _
      · rw [if_neg hq]
        exact ih hm

theorem forall_mem_jsSet {α} {m : JsMap α} {k : String} {v : α}
    {P : String × α → Prop} (h : ∀ p ∈ m, P p) (hv : P (k, v)) :
    ∀ p ∈ jsSet m k v, P p := by
  intro p hp
  rcases mem_jsSet hp with hm | rfl
  · exact h p hm
  · exact hv

/-- The structural skeleton of a node. -/
def structOf (n : OutlineNode) : String × Nat × List String :=
  (n.id, n.rank, n.children)

/-- Two node maps with pointwise identical skeletons. -/
def StructSame (m m' : JsMap OutlineNode) : Prop :=
  ∀ k, Option.map structOf (jsGet m' k) = Option.map structOf (jsGet m k)

theorem StructSame.get_src {m m' : JsMap OutlineNode} (h : StructSame m m')
    {k : String} {n' : OutlineNode} (hk : jsGet m' k = some n') :
    ∃ n, jsGet m k = some n ∧ n'.id = n.id ∧ n'.rank = n.rank ∧
      n'.children = n.children := by
  have hh := h k
  rw [hk] at hh
  cases hg : jsGet m k with
  | none => rw [hg] at hh; simp at hh
  | some n =>
    rw [hg] at hh
    have : structOf n' = structOf n := by simpa using hh
    rw [structOf, structOf, Prod.mk.injEq, Prod.mk.injEq] at this
    exact ⟨n, rfl, this.1, this.2.1, this.2.2⟩

theorem StructSame.get_base {m m' : JsMap OutlineNode} (h : StructSame m m')
    {k : String} {n : OutlineNode} (hk : jsGet m k = some n) :
    ∃ n', jsGet m' k = some n' ∧ n'.id = n.id ∧ n'.rank = n.rank ∧
      n'.children = n.children := by
  have hh := h k
  rw [hk] at hh
  cases hg : jsGet m' k with
  | none => rw [hg] at hh; simp at hh
  | some n' =>
    rw [hg] at hh
    have : structOf n' = structOf n := by simpa using hh
    rw [structOf, structOf, Prod.mk.injEq, Prod.mk.injEq] at this
    exact ⟨n', rfl, this.1, this.2.1, this.2.2⟩

theorem structSame_of_shapeEq {m m' : JsMap OutlineNode} (h : ShapeEq m m') :
    StructSame m m' := by
  intro k
  cases h1 : jsGet m k with
  | none => rw [h.none_of_base h1]
  | some n =>
    obtain ⟨n', hn', hid, -, hrank, hch, -⟩ := h.get_of_base h1
    rw [hn']
    dsimp only [Option.map]
    rw [structOf, structOf, hid, hrank, hch]

theorem childRank_of_structSame {m m' : JsMap OutlineNode}
    (hs : StructSame m m') (h : ChildRank m) : ChildRank m' := by
  intro k n hk c hc
  obtain ⟨n0, hn0, -, hrank, hch⟩ := hs.get_src hk
  obtain ⟨mc0, hmc0, hrank0⟩ := h k n0 hn0 c (hch ▸ hc)
  obtain ⟨mc', hmc', -, hrank', -⟩ := hs.get_base hmc0
  exact ⟨mc', hmc', by rw [hrank', hrank0, hrank]⟩

theorem rankLe_of_structSame {m m' : JsMap OutlineNode}
    (hs : StructSame m m') (h : RankLe m) : RankLe m' := by
  intro k n hk
  obtain ⟨n0, hn0, -, hrank, -⟩ := hs.get_src hk
  rw [hrank]
  exact h k n0 hn0

theorem keyId_of_structSame {m m' : JsMap OutlineNode}
    (hs : StructSame m m') (h : ∀ k n, jsGet m k = some n → n.id = k) :
    ∀ k n, jsGet m' k = some n → n.id = k := by
  intro k n hk
  obtain ⟨n0, hn0, hid, -, -⟩ := hs.get_src hk
  rw [hid]
  exact h k n0 hn0

theorem reachFrom_of_structSame {m m' : JsMap OutlineNode}
    (hs : StructSame m m') {a b : String} (h : ReachFrom m a b) :
    ReachFrom m' a b := by
  induction h with
  | refl => exact ReachFrom.refl
  | step hr hget hmem ih =>
    obtain ⟨n', hn', -, -, hch⟩ := hs.get_base hget
    exact ReachFrom.step ih hn' (hch ▸ hmem)

/-- `ReachFrom` is monotone under pointwise extension of children. -/
theorem reachFrom_mono {m m' : JsMap OutlineNode}
    (h : ∀ k n, jsGet m k = some n →
      ∃ n', jsGet m' k = some n' ∧ n.children ⊆ n'.children)
    {a b : String} (hr : ReachFrom m a b) : ReachFrom m' a b := by
  induction hr with
  | refl => exact ReachFrom.refl
  | step hr hget hmem ih =>
    obtain ⟨n', hn', hsub⟩ := h _ _ hget
    exact ReachFrom.step ih hn' (hsub hmem)

theorem recount_nodupKeys (fuel : Nat) (nodes : JsMap OutlineNode)
    (nodeId : String) (h : (nodes.map Prod.fst).Nodup) :
    (((recountSubtree fuel nodes nodeId).1).map Prod.fst).Nodup := by
  induction fuel generalizing nodes nodeId with
  | zero => exact h
  | succ fuel ih =>
    rw [recountSubtree]
    cases hg : jsGet nodes nodeId with
    | none => exact h
    | some node =>
      dsimp only
      have haux : ∀ (cs : List String) (acc : JsMap OutlineNode × Nat),
          ((acc.1).map Prod.fst).Nodup →
          (((cs.foldl (fun acc childId =>
              let r := recountSubtree fuel acc.1 childId
              (r.1, acc.2 + r.2)) acc).1).map Prod.fst).Nodup := by
        intro cs
        induction cs with
        | nil => intro acc hacc; exact hacc
        | cons c rest ihc =>
          intro acc hacc
          rw [List.foldl_cons]
          exact ihc _ (ih acc.1 c hacc)
      exact jsSet_keys_nodup _ _ (haux node.children (nodes, 0) h)

/-- The structural invariant of reachable stores (everything except the
count equation). -/
structure SInv (index : ConversationIndex) : Prop where
  nodup : (index.nodes.map Prod.fst).Nodup
  root_mem : ∃ rt, jsGet index.nodes "root" = some rt ∧ rt.rank = 0 ∧
    rt.promptIndices = []
  key_id : ∀ k n, jsGet index.nodes k = some n → n.id = k
  emb_root : jsGet index.embeddings "root" = none
  cache_root : ∀ p ∈ index.cache, (p : String × CacheEntry).2.nodeId ≠ "root"
  child_rank : ChildRank index.nodes
  rank_le : RankLe index.nodes
  reach : ∀ k n, jsGet index.nodes k = some n → ReachFrom index.nodes "root" k

/-- The full invariant: structure plus the count equation. -/
def Inv (index : ConversationIndex) : Prop := SInv index ∧ countOK index.nodes

/-- `insertPromptIntoNode` (into a non-root target) preserves the
structural invariant. -/
theorem SInv_insert {index : ConversationIndex} (h : SInv index)
    {target : String} (htarget : target ≠ "root") (pIdx now : Nat) :
    SInv (insertPromptIntoNode index target pIdx now) := by
  rw [insertPromptIntoNode]
  cases hg : jsGet index.nodes target with
  | none => exact h
  | some node =>
    dsimp only
    set node1 := if node.promptIndices.contains pIdx then node
      else { node with promptIndices := node.promptIndices ++ [pIdx] }
      with hnode1
    have hstruct : structOf { node1 with updatedAt := now } = structOf node := by
      rw [hnode1]
      by_cases hc : node.promptIndices.contains pIdx
      · rw [if_pos hc]
        rfl
      · rw [if_neg hc]
        rfl
    have hs : StructSame index.nodes
        (jsSet index.nodes target { node1 with updatedAt := now }) := by
      intro k
      by_cases hk : target = k
      · subst hk
        rw [jsGet_jsSet_self, hg]
        dsimp only [Option.map]
        rw [hstruct]
      · rw [jsGet_jsSet_ne _ _ _ _ hk]
    refine ⟨jsSet_keys_nodup _ _ h.nodup, ?_, keyId_of_structSame hs h.key_id,
      h.emb_root, h.cache_root, childRank_of_structSame hs h.child_rank,
      rankLe_of_structSame hs h.rank_le, ?_⟩
    · obtain ⟨rt, hrt, hr0, hpi⟩ := h.root_mem
      exact ⟨rt, by rw [jsGet_jsSet_ne _ _ _ _ htarget]; exact hrt, hr0, hpi⟩
    · intro k n hk
      obtain ⟨n0, hn0, -, -, -⟩ := hs.get_src hk
      exact reachFrom_of_structSame hs (h.reach k n0 hn0)

/-- `updatePromptCounts` preserves the structural invariant (and, on
structurally sound stores, establishes the count equation). -/
theorem SInv_update {index : ConversationIndex} (h : SInv index) :
    SInv (updatePromptCounts index) := by
  have hs0 : ShapeEq index.nodes (updatePromptCounts index).nodes :=
    shapeEq_updatePromptCounts index
  have hs : StructSame index.nodes (updatePromptCounts index).nodes :=
    structSame_of_shapeEq hs0
  refine ⟨recount_nodupKeys _ _ _ h.nodup, ?_, keyId_of_structSame hs h.key_id,
    h.emb_root, h.cache_root, childRank_of_structSame hs h.child_rank,
    rankLe_of_structSame hs h.rank_le, ?_⟩
  · obtain ⟨rt, hrt, hr0, hpi⟩ := h.root_mem
    obtain ⟨rt', hrt', -, -, hrank', -, hpi'⟩ := hs0.get_of_base hrt
    exact ⟨rt', hrt', by rw [hrank', hr0], by rw [hpi', hpi]⟩
  · intro k n hk
    obtain ⟨n0, hn0, -, -, -⟩ := hs.get_src hk
    exact reachFrom_of_structSame hs (h.reach k n0 hn0)

theorem counts_update {index : ConversationIndex} (h : SInv index) :
    countOK (updatePromptCounts index).nodes := by
  obtain ⟨rt, hrt, hr0, -⟩ := h.root_mem
  exact updatePromptCounts_establishes_counts index rt hrt hr0 h.child_rank
    h.rank_le h.reach

theorem SInv_cacheSet {index : ConversationIndex} (h : SInv index)
    (hash : String) (entry : CacheEntry) (hne : entry.nodeId ≠ "root") :
    SInv { index with cache := jsSet index.cache hash entry } :=
  ⟨h.nodup, h.root_mem, h.key_id, h.emb_root,
    forall_mem_jsSet h.cache_root hne, h.child_rank, h.rank_le, h.reach⟩

/-- `spawnNode` under an existing parent of the preceding rank, with a
fresh id, preserves the structural invariant. -/
theorem SInv_spawn {index : ConversationIndex} (h : SInv index)
    {parentId : String} {pn : OutlineNode}
    (hparent : jsGet index.nodes parentId = some pn)
    {rank : Nat} (hprank : rank = pn.rank + 1) (hrle : rank ≤ 2)
    (lbl : String) (embedding : Option (List ℝ)) (now : Nat) {suffix : String}
    (hfresh : jsGet index.nodes ("node_" ++ suffix) = none) :
    SInv (spawnNode index parentId lbl rank embedding now suffix).2 := by
  set newId := "node_" ++ suffix with hnew
  have hne_par : parentId ≠ newId := by
    intro he
    rw [he, hfresh] at hparent
    cases hparent
  set nodeRec : OutlineNode := ⟨newId, lbl, rank, [], [], 0, now, now⟩
    with hnodeRec
  set pn' : OutlineNode := { pn with children := pn.children ++ [newId] }
    with hpn'
  have hN : (spawnNode index parentId lbl rank embedding now suffix).2.nodes =
      jsSet (jsSet index.nodes newId nodeRec) parentId pn' :=
    spawnNode_nodes index parentId lbl rank embedding now suffix pn hparent
      hne_par
  have hE : ∀ k, k ≠ newId →
      jsGet (spawnNode index parentId lbl rank embedding now suffix).2.embeddings
        k = jsGet index.embeddings k := by
    intro k hk
    rw [spawnNode.eq_def]
    dsimp only
    cases embedding with
    | some e => rw [jsGet_jsSet_ne _ _ _ _ (Ne.symm hk)]
    | none => rfl
  have hC : (spawnNode index parentId lbl rank embedding now suffix).2.cache =
      index.cache := by
    rw [spawnNode.eq_def]
  -- lookup characterization in the new node map
  have hlook : ∀ k, jsGet (jsSet (jsSet index.nodes newId nodeRec) parentId pn')
      k = if parentId = k then some pn' else if newId = k then some nodeRec
        else jsGet index.nodes k := by
    intro k
    by_cases hkp : parentId = k
    · subst hkp
      rw [jsGet_jsSet_self, if_pos rfl]
    · rw [if_neg hkp, jsGet_jsSet_ne _ _ _ _ hkp]
      by_cases hkn : newId = k
      · subst hkn
        rw [jsGet_jsSet_self, if_pos rfl]
      · rw [if_neg hkn, jsGet_jsSet_ne _ _ _ _ hkn]
  have hrootne : "root" ≠ newId := fun he => nodeId_ne_root suffix he.symm
  have hne2 : newId ≠ "root" := nodeId_ne_root suffix
  have hmono : ∀ k n, jsGet index.nodes k = some n →
      ∃ n', jsGet (jsSet (jsSet index.nodes newId nodeRec) parentId pn') k =
        some n' ∧ n.children ⊆ n'.children := by
    intro k n hk
    rw [hlook]
    by_cases hkp : parentId = k
    · subst hkp
      rw [hparent] at hk
      cases hk
      rw [if_pos rfl]
      refine ⟨pn', rfl, ?_⟩
      rw [hpn']
      exact List.subset_append_left _ _
    · rw [if_neg hkp]
      by_cases hkn : newId = k
      · subst hkn
        rw [hfresh] at hk
        cases hk
      · rw [if_neg hkn]
        exact ⟨n, hk, List.Subset.refl _⟩
  have hfreshne : ∀ {c : String} {m : OutlineNode},
      jsGet index.nodes c = some m → newId ≠ c := by
    intro c m hm he
    rw [← he, hfresh] at hm
    cases hm
  refine ⟨?_, ?_, ?_, ?_, ?_, ?_, ?_, ?_⟩
  · rw [hN]
    exact jsSet_keys_nodup _ _ (jsSet_keys_nodup _ _ h.nodup)
  · rw [hN, hlook]
    by_cases hpr : parentId = "root"
    · rw [if_pos hpr]
      obtain ⟨rt0, hrt0, h0, hpi0⟩ := h.root_mem
      have hpneq : pn = rt0 := by
        rw [hpr] at hparent
        exact Option.some.inj (hparent.symm.trans hrt0)
      refine ⟨pn', rfl, ?_, ?_⟩
      · rw [hpn', hpneq]
        exact h0
      · rw [hpn', hpneq]
        exact hpi0
    · rw [if_neg hpr, if_neg hne2]
      exact h.root_mem
  · intro k n
    rw [hN, hlook]
    by_cases hkp : parentId = k
    · rw [if_pos hkp]
      intro hk
      cases hk
      rw [hpn']
      rw [← hkp]
      exact h.key_id parentId pn hparent
    · rw [if_neg hkp]
      by_cases hkn : newId = k
      · rw [if_pos hkn]
        intro hk
        cases hk
        rw [hnodeRec]
        exact hkn
      · rw [if_neg hkn]
        exact h.key_id k n
  · rw [hE "root" (Ne.symm hne2)]
    exact h.emb_root
  · rw [hC]
    exact h.cache_root
  · intro k n hk c hc
    rw [hN] at hk ⊢
    rw [hlook] at hk
    rw [hlook]
    by_cases hkp : parentId = k
    · rw [if_pos hkp] at hk
      cases hk
      have hc' : c ∈ pn.children ++ [newId] := by
        rw [hpn'] at hc
        exact hc
      rcases List.mem_append.mp hc' with hcc | hcnew
      · obtain ⟨m, hm, hrank⟩ := h.child_rank parentId pn hparent c hcc
        have hcp : parentId ≠ c := by
          intro he
          rw [← he, hparent] at hm
          cases hm
          omega
        rw [if_neg hcp, if_neg (hfreshne hm)]
        exact ⟨m, hm, by rw [hrank]⟩
      · have hcnew' : c = newId := by simpa using hcnew
        subst hcnew'
        rw [if_neg hne_par, if_pos rfl]
        refine ⟨nodeRec, rfl, ?_⟩
        rw [hnodeRec]
        dsimp only
        rw [hprank]
    · rw [if_neg hkp] at hk
      by_cases hkn : newId = k
      · rw [if_pos hkn] at hk
        cases hk
        rw [hnodeRec] at hc
        simp at hc
      · rw [if_neg hkn] at hk
        obtain ⟨m, hm, hrank⟩ := h.child_rank k n hk c hc
        by_cases hcp : parentId = c
        · rw [if_pos hcp]
          have hmpn : m = pn := by
            rw [← hcp] at hm
            exact Option.some.inj (hm.symm.trans hparent)
          refine ⟨pn', rfl, ?_⟩
          rw [hpn']
          dsimp only
          rw [← hmpn]
          exact hrank
        · rw [if_neg hcp, if_neg (hfreshne hm)]
          exact ⟨m, hm, hrank⟩
  · intro k n hk
    rw [hN, hlook] at hk
    by_cases hkp : parentId = k
    · rw [if_pos hkp] at hk
      cases hk
      rw [hpn']
      exact h.rank_le parentId pn hparent
    · rw [if_neg hkp] at hk
      by_cases hkn : newId = k
      · rw [if_pos hkn] at hk
        cases hk
        exact hrle
      · rw [if_neg hkn] at hk
        exact h.rank_le k n hk
  · intro k n hk
    rw [hN] at hk ⊢
    rw [hlook] at hk
    by_cases hkp : parentId = k
    · subst hkp
      exact reachFrom_mono hmono (h.reach parentId pn hparent)
    · rw [if_neg hkp] at hk
      by_cases hkn : newId = k
      · subst hkn
        refine ReachFrom.step
          (reachFrom_mono hmono (h.reach parentId pn hparent))
          (by rw [hlook, if_pos rfl]) ?_
        rw [hpn']
        exact List.mem_append_right _ (List.mem_singleton.mpr rfl)
      · rw [if_neg hkn] at hk
        exact reachFrom_mono hmono (h.reach k n hk)

theorem spawnNode_id_ne_root (index : ConversationIndex)
    (parentId lbl : String) (rank : Nat) (embedding : Option (List ℝ))
    (now : Nat) (suffix : String) :
    (spawnNode index parentId lbl rank embedding now suffix).1.id ≠ "root" := by
  rw [spawnNode_fst]
  exact nodeId_ne_root suffix

theorem Inv_commit {idx0 : ConversationIndex} (h : SInv idx0) (hash : String)
    {target : String} (htarget : target ≠ "root") (conf : ℝ) (flag : Bool)
    (pIdx now : Nat) :
    Inv (commit idx0 hash target conf flag pIdx now).2 := by
  rw [commit]
  dsimp only
  have h1 := SInv_insert h htarget pIdx now
  exact ⟨SInv_cacheSet (SInv_update h1) hash ⟨target, conf⟩ htarget,
    counts_update h1⟩

theorem bestMatch_some_mem {q : List ℝ} {cs : List Candidate} {t : ℝ}
    {r : MatchResult} (h : bestMatch q cs t = some r) :
    ∃ c ∈ cs, c.id = r.id := by
  rw [bestMatch_eq_spec_aux] at h
  obtain ⟨-, c, hmem, -, hid, -⟩ := bestMatchSpec_some_sound q t cs r h
  exact ⟨c, hmem, hid.symm⟩

theorem getChildCandidates_has {index : ConversationIndex}
    {parentId : String} {rnk : Option Nat} {c : Candidate}
    (h : c ∈ getChildCandidates index parentId rnk) :
    jsHas index.embeddings c.id = true := by
  rw [getChildCandidates] at h
  cases hp : jsGet index.nodes parentId with
  | none => rw [hp] at h; simp at h
  | some parent =>
    rw [hp] at h
    dsimp only at h
    obtain ⟨id, hmem, hc⟩ := List.mem_map.mp h
    obtain ⟨-, hpred⟩ := List.mem_filter.mp hmem
    have hcid : c.id = id := by rw [← hc]
    rw [hcid]
    cases hn : jsGet index.nodes id with
    | none => rw [hn] at hpred; cases hpred
    | some n =>
      rw [hn] at hpred
      dsimp only at hpred
      rw [Bool.and_eq_true] at hpred
      exact hpred.2

theorem childCandidate_id_ne_root {index : ConversationIndex}
    (hemb : jsGet index.embeddings "root" = none) {parentId : String}
    {rnk : Option Nat} {c : Candidate}
    (h : c ∈ getChildCandidates index parentId rnk) : c.id ≠ "root" := by
  intro he
  have hhas := getChildCandidates_has h
  rw [he, jsHas_eq_isSome, hemb] at hhas
  cases hhas

theorem allEmbedded_id_ne_root {index : ConversationIndex}
    (hemb : jsGet index.embeddings "root" = none) {c : Candidate}
    (h : c ∈ getAllEmbeddedCandidates index) : c.id ≠ "root" := by
  intro he
  rw [getAllEmbeddedCandidates] at h
  obtain ⟨p, hp, hc⟩ := List.mem_map.mp h
  have hid : c.id = p.1 := by rw [← hc]
  have hmem : (p.1, p.2) ∈ index.embeddings := by
    rw [show (p.1, p.2) = p from rfl]
    exact hp
  rw [← hid, he] at hmem
  exact jsGet_ne_none_of_mem hmem hemb

/-- Every `classifyPrompt` run (with a fresh spawned id) preserves the
invariant. -/
theorem Inv_classifyPrompt {index : ConversationIndex} (hI : Inv index)
    (p : PromptInput) (s : Settings) (env : PipelineEnv)
    (hfresh : jsGet index.nodes ("node_" ++ env.suffix) = none) :
    Inv (classifyPrompt index p s env).2.1 := by
  obtain ⟨hS, hCnt⟩ := hI
  rw [classifyPrompt]
  cases hcache : jsGet index.cache (hashPrompt p.fullText) with
  | some cached =>
    dsimp only
    have hne : cached.nodeId ≠ "root" :=
      hS.cache_root _ (jsGet_mem hcache)
    have h1 := SInv_insert hS hne p.index env.now
    exact ⟨SInv_update h1, counts_update h1⟩
  | none =>
    cases hemb : env.embedSentence with
    | error e => exact ⟨hS, hCnt⟩
    | ok v =>
      dsimp only
      cases hr1 : bestMatch v (getChildCandidates index "root" (some 1))
          s.thresholdHigh with
      | some rank1Hit =>
        dsimp only
        obtain ⟨c1, hc1mem, hc1id⟩ := bestMatch_some_mem hr1
        cases hr2 : bestMatch v (getChildCandidates index rank1Hit.id (some 2))
            s.thresholdHigh with
        | some rank2Hit =>
          dsimp only
          obtain ⟨c2, hc2mem, hc2id⟩ := bestMatch_some_mem hr2
          have hne : rank2Hit.id ≠ "root" :=
            hc2id ▸ childCandidate_id_ne_root hS.emb_root hc2mem
          exact Inv_commit hS _ hne _ false _ _
        | none =>
          dsimp only
          obtain ⟨n1, hn1, hn1rank, -⟩ := getChildCandidates_mem hc1mem
          have hparent : jsGet index.nodes rank1Hit.id = some n1 := by
            rw [← hc1id]
            exact hn1
          have hsp := SInv_spawn hS hparent
            (by rw [hn1rank] : (2 : Nat) = n1.rank + 1) (by omega)
            (fetchLabel p.firstSentence index env).1 (some v) env.now hfresh
          exact Inv_commit hsp _ (spawnNode_id_ne_root _ _ _ _ _ _ _) _ true _ _
      | none =>
        dsimp only
        by_cases hlen : 1 < index.nodes.length
        · rw [if_pos hlen]
          cases hfull : env.embedFull with
          | ok fv =>
            dsimp only
            cases hfh : bestMatch fv (getAllEmbeddedCandidates index)
                s.thresholdLow with
            | some fullHit =>
              dsimp only
              obtain ⟨cf, hcfmem, hcfid⟩ := bestMatch_some_mem hfh
              have hfne : fullHit.id ≠ "root" :=
                hcfid ▸ allEmbedded_id_ne_root hS.emb_root hcfmem
              cases hhit : jsGet index.nodes fullHit.id with
              | some hitNode =>
                dsimp only
                by_cases hrk : hitNode.rank = 1
                · rw [if_pos hrk]
                  have hsp := SInv_spawn hS hhit
                    (by rw [hrk] : (2 : Nat) = hitNode.rank + 1) (by omega)
                    (fetchLabel p.firstSentence index env).1 (some fv)
                    env.now hfresh
                  exact Inv_commit hsp _ (spawnNode_id_ne_root _ _ _ _ _ _ _) _ true _ _
                · rw [if_neg hrk]
                  exact Inv_commit hS _ hfne _ false _ _
              | none =>
                dsimp only
                exact Inv_commit hS _ hfne _ false _ _
            | none =>
              dsimp only
              obtain ⟨rt, hrt, hr0, -⟩ := hS.root_mem
              have hsp := SInv_spawn hS hrt
                (by rw [hr0] : (1 : Nat) = rt.rank + 1) (by omega)
                (fetchLabel p.firstSentence index env).1 (some v) env.now
                hfresh
              exact Inv_commit hsp _ (spawnNode_id_ne_root _ _ _ _ _ _ _) _ true _ _
          | error e2 =>
            dsimp only
            obtain ⟨rt, hrt, hr0, -⟩ := hS.root_mem
            have hsp := SInv_spawn hS hrt
              (by rw [hr0] : (1 : Nat) = rt.rank + 1) (by omega)
              (fetchLabel p.firstSentence index env).1 (some v) env.now hfresh
            exact Inv_commit hsp _ (spawnNode_id_ne_root _ _ _ _ _ _ _) _ true _ _
        · rw [if_neg hlen]
          obtain ⟨rt, hrt, hr0, -⟩ := hS.root_mem
          have hsp := SInv_spawn hS hrt
            (by rw [hr0] : (1 : Nat) = rt.rank + 1) (by omega)
            (fetchLabel p.firstSentence index env).1 (some v) env.now hfresh
          exact Inv_commit hsp _ (spawnNode_id_ne_root _ _ _ _ _ _ _) _ true _ _

theorem embedLoop_get_root (responses : Nat → Except String (List ℝ))
    (l : List OutlineNode) :
    ∀ (k : Nat) (m : JsMap (List ℝ)), (∀ n ∈ l, n.id ≠ "root") →
    jsGet m "root" = none →
    jsGet (embedLoop responses l k m) "root" = none := by
  induction l with
  | nil => intro k m _ hm; exact hm
  | cons n rest ih =>
    intro k m hids hm
    rw [embedLoop]
    cases responses k with
    | ok e =>
      exact ih (k + 1) _ (fun n' hn' => hids n' (List.mem_cons_of_mem _ hn'))
        (by rw [jsGet_jsSet_ne _ _ _ _ (hids n (List.mem_cons_self _ _)), hm])
    | error e =>
      exact ih (k + 1) m (fun n' hn' => hids n' (List.mem_cons_of_mem _ hn'))
        hm

theorem Inv_initializeEmbeddings {index : ConversationIndex} (hI : Inv index)
    (settings : Settings) (responses : Nat → Except String (List ℝ)) :
    Inv (initializeEmbeddings index settings responses) := by
  obtain ⟨hS, hCnt⟩ := hI
  rw [initializeEmbeddings]
  by_cases hkey : settings.geminiApiKey = ""
  · rw [if_pos hkey]
    exact ⟨hS, hCnt⟩
  · rw [if_neg hkey]
    have hids : ∀ n ∈ (jsValues index.nodes).filter
        (fun n => 0 < n.rank && !(jsHas index.embeddings n.id)),
        n.id ≠ "root" := by
      intro n hn hid
      obtain ⟨hval, hpred⟩ := List.mem_filter.mp hn
      obtain ⟨p, hp, hpn⟩ := List.mem_map.mp hval
      have hget : jsGet index.nodes p.1 = some p.2 :=
        jsGet_of_mem_nodup hS.nodup hp
      have hidk : p.2.id = p.1 := hS.key_id _ _ hget
      rw [hpn] at hidk
      rw [← hidk, hid] at hget
      obtain ⟨rt, hrt, hr0, -⟩ := hS.root_mem
      have hneq : p.2 = rt := Option.some.inj (hget.symm.trans hrt)
      rw [Bool.and_eq_true] at hpred
      have hpos : 0 < n.rank := by simpa using hpred.1
      rw [← hpn, hneq, hr0] at hpos
      omega
    have hemb' := embedLoop_get_root responses _ 0 index.embeddings hids
      hS.emb_root
    exact ⟨⟨hS.nodup, hS.root_mem, hS.key_id, hemb', hS.cache_root,
      hS.child_rank, hS.rank_le, hS.reach⟩, hCnt⟩

theorem Inv_createIndex (conversationId : String) (now : Nat) :
    Inv (createIndex conversationId now) := by
  refine ⟨⟨?_, ?_, ?_, rfl, ?_, ?_, ?_, ?_⟩, ?_⟩
  · simp [createIndex]
  · exact ⟨_, by rw [createIndex]; rw [jsGet_cons, if_pos rfl], rfl, rfl⟩
  · intro k n hk
    rw [createIndex, jsGet_cons] at hk
    by_cases hr : "root" = k
    · rw [if_pos hr] at hk
      cases hk
      exact hr
    · rw [if_neg hr] at hk
      cases hk
  · intro p hp
    simp [createIndex] at hp
  · intro k n hk c hc
    rw [createIndex, jsGet_cons] at hk
    by_cases hr : "root" = k
    · rw [if_pos hr] at hk
      cases hk
      simp at hc
    · rw [if_neg hr] at hk
      cases hk
  · intro k n hk
    rw [createIndex, jsGet_cons] at hk
    by_cases hr : "root" = k
    · rw [if_pos hr] at hk
      cases hk
      exact Nat.zero_le 2
    · rw [if_neg hr] at hk
      cases hk
  · intro k n hk
    rw [createIndex, jsGet_cons] at hk
    by_cases hr : "root" = k
    · rw [← hr]
      exact ReachFrom.refl
    · rw [if_neg hr] at hk
      cases hk
  · intro k n hk
    rw [createIndex, jsGet_cons] at hk
    by_cases hr : "root" = k
    · rw [if_pos hr] at hk
      cases hk
      rfl
    · rw [if_neg hr] at hk
      cases hk

/-- Every reachable store satisfies the full invariant. -/
theorem Inv_of_reachable {index : ConversationIndex} (h : Reachable index) :
    Inv index := by
  induction h with
  | base conversationId now => exact Inv_createIndex conversationId now
  | classify p s env hfresh hr ih => exact Inv_classifyPrompt ih p s env hfresh
  | initEmb s rs hr ih => exact Inv_initializeEmbeddings ih s rs

/-! ## Claim theorems: store invariants -/

/-- **C1.**  In every store reachable by any sequence of classifications
(each of which runs `updatePromptCounts` on every placement) and
re-embedding passes, every node satisfies
`promptCount = promptIndices.length + sum of children's promptCounts`. -/
theorem promptCount_subtree_invariant (index : ConversationIndex)
    (h : Reachable index) (k : String) (n : OutlineNode)
    (hk : jsGet index.nodes k = some n) :
    n.promptCount = n.promptIndices.length + childSum index.nodes n.children :=
  (Inv_of_reachable h).2 k n hk

/-- Witness for the C1 theorem at the freshly created store. -/
theorem promptCount_subtree_invariant_witness :
    OutlineNode.promptCount ⟨"root", "root", 0, [], [], 0, 5, 5⟩ =
      (OutlineNode.promptIndices ⟨"root", "root", 0, [], [], 0, 5, 5⟩).length +
        childSum (createIndex "c" 5).nodes
          (OutlineNode.children ⟨"root", "root", 0, [], [], 0, 5, 5⟩) :=
  promptCount_subtree_invariant (createIndex "c" 5) (Reachable.base "c" 5)
    "root" ⟨"root", "root", 0, [], [], 0, 5, 5⟩ rfl

/-- **C10.**  In every reachable store, the root never has a registered
embedding, is never a candidate of the rank-1 scan or of the full-tree
escalation scan, and never has a passage attached directly to it. -/
theorem root_never_candidate (index : ConversationIndex)
    (h : Reachable index) :
    jsGet index.embeddings "root" = none ∧
    (∀ n, jsGet index.nodes "root" = some n → n.promptIndices = []) ∧
    (∀ c ∈ getAllEmbeddedCandidates index, c.id ≠ "root") ∧
    (∀ rnk : Option Nat, ∀ c ∈ getChildCandidates index "root" rnk,
      c.id ≠ "root") := by
  obtain ⟨hS, -⟩ := Inv_of_reachable h
  refine ⟨hS.emb_root, ?_, ?_, ?_⟩
  · intro n hn
    obtain ⟨rt, hrt, -, hpi⟩ := hS.root_mem
    have : n = rt := Option.some.inj (hn.symm.trans hrt)
    rw [this, hpi]
  · intro c hc
    exact allEmbedded_id_ne_root hS.emb_root hc
  · intro rnk c hc
    exact childCandidate_id_ne_root hS.emb_root hc

/-- Witness for the C10 theorem at the freshly created store. -/
theorem root_never_candidate_witness :
    jsGet (createIndex "c" 5).embeddings "root" = none ∧
    OutlineNode.promptIndices ⟨"root", "root", 0, [], [], 0, 5, 5⟩ = [] :=
  ⟨(root_never_candidate (createIndex "c" 5) (Reachable.base "c" 5)).1,
    (root_never_candidate (createIndex "c" 5) (Reachable.base "c" 5)).2.1
      ⟨"root", "root", 0, [], [], 0, 5, 5⟩ rfl⟩

end ChatOrganizer
